import Mathlib

/-!
Verification of the company-generation core of the outreach-campaign tool:
the LLM provider failover manager (llm_providers.py) and the response
recovery pipeline with its fallback catalog (real_companies.py).

The Python source is shallowly embedded: text is `List Char`, Python
exceptions are `Except String` values carrying the exception message,
`json.loads` is a fuel-indexed JSON parser, and the specific regular
expressions used by the source are embedded as the string scanners they
denote.
-/

set_option maxRecDepth 8000

namespace EmailSender

/-- Text content, modelling Python `str` positionally. -/
abbrev Cs := List Char

/-- Whitespace stripped by Python `str.strip()` (ASCII range). -/
def isPyWs (c : Char) : Bool :=
  c = ' ' ∨ c = '\t' ∨ c = '\n' ∨ c = '\r' ∨ c = Char.ofNat 11 ∨ c = Char.ofNat 12

/-- Characters matched by the regex class backslash-s (ASCII range). -/
def isReWs (c : Char) : Bool := isPyWs c

/-- Whitespace accepted between JSON tokens by `json.loads`. -/
def isJsonWs (c : Char) : Bool :=
  c = ' ' ∨ c = '\t' ∨ c = '\n' ∨ c = '\r'

/-- The backslash character. -/
def bsl : Char := Char.ofNat 92

/-- The double-quote character. -/
def dqu : Char := Char.ofNat 34

/-- The opening curly brace character. -/
def obr : Char := Char.ofNat 123

/-- The closing curly brace character. -/
def cbr : Char := Char.ofNat 125

/-- Python `str.strip()`. -/
def stripChars (l : Cs) : Cs :=
  ((l.dropWhile isPyWs).reverse.dropWhile isPyWs).reverse

/-- Python `str.strip()` on `String`. -/
def pythonStrip (s : String) : String := String.mk (stripChars s.data)

/-- Python `str.lower()` (ASCII range suffices for all text involved). -/
def pyLower (l : Cs) : Cs := l.map Char.toLower

/-- Boolean prefix test on character lists. -/
def isStartOf : Cs → Cs → Bool
  | [], _ => true
  | _ :: _, [] => false
  | p :: ps, c :: cs => p = c && isStartOf ps cs

/-- Python substring containment `p in l`. -/
def hasSub (p : Cs) : Cs → Bool
  | [] => isStartOf p []
  | c :: cs => isStartOf p (c :: cs) || hasSub p cs

/-- Substring containment for `String` arguments. -/
def strIn (p s : String) : Bool := hasSub p.data s.data

/-- One generated or recovered prospect company (dataclass RealCompany). -/
structure RealCompany where
  name : String
  website : String
  country : String
  industry : String
  contact_name : String
  contact_title : String
  contact_email : String
  description : String
deriving DecidableEq, Repr

/-- The validity invariant of the spec: name and both contact fields are
non-empty after trimming whitespace. -/
def validRecord (r : RealCompany) : Prop :=
  pythonStrip r.name ≠ "" ∧ pythonStrip r.contact_name ≠ "" ∧
    pythonStrip r.contact_email ≠ ""

instance (r : RealCompany) : Decidable (validRecord r) := by
  unfold validRecord
  infer_instance

/-- The hard-coded US AI companies of _get_ai_companies. -/
def aiUS : List RealCompany :=
  [⟨"OpenAI", "https://openai.com", "US", "Artificial Intelligence",
    "Sam Altman", "CEO", "sam@openai.com",
    "AI research company focused on developing safe artificial general intelligence"⟩,
   ⟨"Anthropic", "https://anthropic.com", "US", "Artificial Intelligence",
    "Dario Amodei", "CEO", "dario@anthropic.com",
    "AI safety company developing Claude AI assistant"⟩,
   ⟨"Hugging Face", "https://huggingface.co", "US", "Artificial Intelligence",
    "Clem Delangue", "CEO", "clem@huggingface.co",
    "Open source AI platform and model repository"⟩,
   ⟨"Scale AI", "https://scale.com", "US", "Artificial Intelligence",
    "Alex Wang", "CEO", "alex@scale.com",
    "Data platform for AI training and validation"⟩,
   ⟨"Cohere", "https://cohere.com", "US", "Artificial Intelligence",
    "Aidan Gomez", "CEO", "aidan@cohere.com",
    "Enterprise AI platform for natural language processing"⟩]

/-- The hard-coded US tech companies of _get_tech_companies. -/
def techUS : List RealCompany :=
  [⟨"Microsoft", "https://microsoft.com", "US", "Technology",
    "Satya Nadella", "CEO", "satya.nadella@microsoft.com",
    "Technology company focused on cloud computing and productivity software"⟩,
   ⟨"Google", "https://google.com", "US", "Technology",
    "Sundar Pichai", "CEO", "sundar@google.com",
    "Technology company specializing in search, advertising, and cloud services"⟩,
   ⟨"Apple", "https://apple.com", "US", "Technology",
    "Tim Cook", "CEO", "tcook@apple.com",
    "Technology company known for consumer electronics and software"⟩,
   ⟨"Meta", "https://meta.com", "US", "Technology",
    "Mark Zuckerberg", "CEO", "mark@meta.com",
    "Social media and metaverse technology company"⟩,
   ⟨"Tesla", "https://tesla.com", "US", "Technology",
    "Elon Musk", "CEO", "elon@tesla.com",
    "Electric vehicle and clean energy company"⟩]

/-- The hard-coded Japanese tech companies of _get_tech_companies. -/
def techJP : List RealCompany :=
  [⟨"Sony", "https://sony.com", "JP", "Technology",
    "Kenichiro Yoshida", "CEO", "kenichiro.yoshida@sony.com",
    "Japanese multinational conglomerate in entertainment and technology"⟩,
   ⟨"Nintendo", "https://nintendo.com", "JP", "Gaming",
    "Shuntaro Furukawa", "President", "shuntaro.furukawa@nintendo.com",
    "Japanese video game company and console manufacturer"⟩,
   ⟨"SoftBank", "https://softbank.jp", "JP", "Technology",
    "Masayoshi Son", "CEO", "masayoshi.son@softbank.jp",
    "Japanese multinational conglomerate and technology investment company"⟩]

/-- The hard-coded US gaming companies of _get_gaming_companies. -/
def gamingUS : List RealCompany :=
  [⟨"Epic Games", "https://epicgames.com", "US", "Gaming",
    "Tim Sweeney", "CEO", "tim@epicgames.com",
    "Video game developer and publisher, creator of Fortnite"⟩,
   ⟨"Riot Games", "https://riotgames.com", "US", "Gaming",
    "Nicolo Laurent", "CEO", "nicolo@riotgames.com",
    "Video game developer, creator of League of Legends"⟩,
   ⟨"Blizzard Entertainment", "https://blizzard.com", "US", "Gaming",
    "Mike Ybarra", "President", "mike.ybarra@blizzard.com",
    "Video game developer and publisher"⟩]

/-- The hard-coded US VR/AR companies of _get_vr_companies. -/
def vrUS : List RealCompany :=
  [⟨"Meta Reality Labs", "https://about.meta.com/realitylabs", "US",
    "VR/AR Technology", "Andrew Bosworth", "VP of Reality Labs", "boz@meta.com",
    "VR and AR technology development division of Meta"⟩,
   ⟨"Magic Leap", "https://magicleap.com", "US", "VR/AR Technology",
    "Peggy Johnson", "CEO", "peggy@magicleap.com",
    "Augmented reality technology company"⟩,
   ⟨"HTC Vive", "https://vive.com", "US", "VR/AR Technology",
    "Cher Wang", "CEO", "cher.wang@htc.com",
    "Virtual reality hardware and software company"⟩]

/-- _get_tech_companies: US and JP lists; any other country falls back to
_get_ai_companies("US"), whose value is the aiUS list. -/
def get_tech_companies (country : String) : List RealCompany :=
  if country = "US" then techUS
  else if country = "JP" then techJP
  else aiUS

/-- _get_ai_companies. -/
def get_ai_companies (country : String) : List RealCompany :=
  if country = "US" then aiUS else get_tech_companies country

/-- _get_gaming_companies. -/
def get_gaming_companies (country : String) : List RealCompany :=
  if country = "US" then gamingUS else get_tech_companies country

/-- _get_vr_companies. -/
def get_vr_companies (country : String) : List RealCompany :=
  if country = "US" then vrUS else get_tech_companies country

/-- Keyword containment test used by _get_fallback_companies:
`any(term in icp_lower for term in terms)`. -/
def anyTermIn (terms : List String) (hay : Cs) : Bool :=
  terms.any fun t => hasSub t.data hay

/-- _get_fallback_companies: country keywords first (default US), then
industry keywords in the fixed order AI, gaming, VR/AR, tech (default
tech); truncate to the requested count. -/
def get_fallback_companies (icp_description : String) (num_companies : Nat) :
    List RealCompany :=
  let icpLower := pyLower icp_description.data
  let country : String :=
    if anyTermIn ["us", "usa", "united states", "america"] icpLower then "US"
    else if anyTermIn ["jp", "japan", "japanese"] icpLower then "JP"
    else if anyTermIn ["uk", "britain", "british"] icpLower then "UK"
    else if anyTermIn ["ca", "canada", "canadian"] icpLower then "CA"
    else "US"
  let companies : List RealCompany :=
    if anyTermIn ["ai", "artificial intelligence", "machine learning", "ml"] icpLower then
      get_ai_companies country
    else if anyTermIn ["gaming", "game", "entertainment"] icpLower then
      get_gaming_companies country
    else if anyTermIn ["vr", "ar", "xr", "virtual reality", "augmented reality"] icpLower then
      get_vr_companies country
    else if anyTermIn ["startup", "tech", "technology"] icpLower then
      get_tech_companies country
    else
      get_tech_companies country
  companies.take num_companies

/-- Outcome of one provider call (dataclass LLMResponse). A provider is
modelled by the response its generate_completion call would return. -/
structure LLMResponse where
  content : String
  model : String
  provider : String
  success : Bool
  error : Option String
deriving DecidableEq, Repr

/-- The failover loop of LLMManager.generate_completion over the retained
providers: return the first successful response, else the synthetic
exhaustion response. -/
def providerLoop : List LLMResponse → LLMResponse
  | [] => ⟨"", "none", "none", false, some "All LLM providers failed"⟩
  | r :: rest => if r.success then r else providerLoop rest

/-- LLMManager.generate_completion: empty registry yields the synthetic
configuration-failure response, otherwise the failover loop runs. -/
def manager_generate_completion (providers : List LLMResponse) : LLMResponse :=
  if providers = [] then ⟨"", "none", "none", false, some "No LLM providers available"⟩
  else providerLoop providers

end EmailSender

namespace EmailSender

/-- Python `str.replace` specialised to the call `content.replace(chr(92)+chr(34), chr(34))`:
replace each backslash-quote pair by a bare quote, scanning left to right
without overlap (source lines 102 and 437). -/
def replBQ : Cs → Cs
  | [] => []
  | [c] => [c]
  | c1 :: c2 :: rest =>
    if c1 = bsl ∧ c2 = dqu then dqu :: replBQ rest
    else c1 :: replBQ (c2 :: rest)

/-- Length of the regex-whitespace run at the head. -/
def wsRun (l : Cs) : Cs := l.takeWhile isReWs

/-- Rest after the regex-whitespace run at the head. -/
def wsRest (l : Cs) : Cs := l.dropWhile isReWs

theorem length_dropWhile_le (p : Char → Bool) (l : Cs) :
    (l.dropWhile p).length ≤ l.length := by
  induction l with
  | nil => simp [List.dropWhile]
  | cons c rest ih =>
    rw [List.dropWhile]
    by_cases h : p c
    · simp only [h]
      exact Nat.le_succ_of_le ih
    · simp [h]

theorem length_wsRest_le (l : Cs) : (wsRest l).length ≤ l.length :=
  length_dropWhile_le isReWs l

/-- Does a trailing-comma match of the repair regex start here: optional
whitespace then a closing brace or bracket? -/
def commaMatch (rest : Cs) : Bool :=
  match wsRest rest with
  | b :: _ => b = cbr ∨ b = ']'
  | [] => false

/-- The trailing-comma repair regex of _fix_json_issues: delete every comma
followed by whitespace and a closing brace or bracket. The regex scan over
non-overlapping leftmost matches deletes exactly these commas, because a
match region never contains a comma. -/
def rtc : Cs → Cs
  | [] => []
  | c :: rest =>
    if c = ',' ∧ commaMatch rest then rtc rest else c :: rtc rest

/-- Does the rest of the current line contain a double quote? This is the
lookahead of the quote-escaping regex in _fix_json_issues (the regex dot
does not cross a newline). -/
def quoteInLine (l : Cs) : Bool :=
  (l.takeWhile fun c => c ≠ '\n').contains dqu

/-- The quote-escaping regex of _fix_json_issues: each quote not preceded
by a backslash and with another quote later on the same line gains a
backslash. The previous original character is threaded as `prev`. -/
def escQA (prev : Option Char) : Cs → Cs
  | [] => []
  | c :: rest =>
    if c = dqu ∧ prev ≠ some bsl ∧ quoteInLine rest then
      bsl :: dqu :: escQA (some c) rest
    else c :: escQA (some c) rest

/-- _fix_json_issues: trailing-comma removal, then unescaping of
backslash-quote pairs, then the quote-escaping regex. -/
def fix_json_issues (l : Cs) : Cs := escQA none (replBQ (rtc l))

/-- First index of a character (Python `str.find`, `none` for -1). -/
def pyFindO (c : Char) : Cs → Option Nat
  | [] => none
  | a :: l => if a = c then some 0 else (pyFindO c l).map (· + 1)

/-- Last index of a character (Python `str.rfind`, `none` for -1). -/
def pyRFindO (c : Char) : Cs → Option Nat
  | [] => none
  | a :: l =>
    match pyRFindO c l with
    | some i => some (i + 1)
    | none => if a = c then some 0 else none

/-- Lines 93 to 96: slice from the first opening brace to the last closing
brace inclusive, when that span is non-empty; otherwise leave unchanged. -/
def boundaryTrim (l : Cs) : Cs :=
  match pyFindO obr l with
  | none => l
  | some s =>
    let e : Nat := match pyRFindO cbr l with
      | none => 0
      | some r => r + 1
    if s < e then (l.drop s).take (e - s) else l

/-- First occurrence split: the text before the first occurrence of `sep`
and the text after it, if `sep` occurs. -/
def firstSplit (sep : Cs) : Cs → Option (Cs × Cs)
  | [] => if isStartOf sep [] then some ([], []) else none
  | c :: rest =>
    if isStartOf sep (c :: rest) then some ([], (c :: rest).drop sep.length)
    else (firstSplit sep rest).map fun pq => (c :: pq.1, pq.2)

theorem firstSplit_length (sep l p q : Cs) (hs : 0 < sep.length)
    (h : firstSplit sep l = some (p, q)) : q.length < l.length := by
  induction l generalizing p q with
  | nil =>
    rcases sep with _ | ⟨c, cs⟩
    · simp at hs
    · simp [firstSplit, isStartOf] at h
  | cons c rest ih =>
    rw [firstSplit] at h
    by_cases hst : isStartOf sep (c :: rest) = true
    · rw [if_pos hst] at h
      have hq : q = (c :: rest).drop sep.length := by
        have := (Option.some.injEq _ _).mp h
        exact (Prod.mk.injEq _ _ _ _).mp this |>.2.symm
      subst hq
      rw [List.length_drop]
      simp only [List.length_cons]
      omega
    · rw [if_neg hst] at h
      rcases hfs : firstSplit sep rest with _ | ⟨p', q'⟩
      · rw [hfs] at h
        exact Option.noConfusion h
      · rw [hfs] at h
        simp only [Option.map_some', Option.some.injEq] at h
        have hih := ih p' q' hfs
        have hq : q = q' := ((Prod.mk.injEq _ _ _ _).mp h).2.symm
        rw [hq]
        simp only [List.length_cons]
        omega

/-- Python `str.split(sep)`, fuel-indexed so that it reduces in the
kernel; fuel one beyond the input length is always sufficient for a
non-empty separator, since each split consumes at least the separator. -/
def pySplitF (sep : Cs) : Nat → Cs → List Cs
  | 0, l => [l]
  | fuel + 1, l =>
    match firstSplit sep l with
    | none => [l]
    | some (p, q) => p :: pySplitF sep fuel q

/-- Python `str.split(sep)`; an empty separator never occurs at call
sites (Python would raise there). -/
def pySplit (sep l : Cs) : List Cs := pySplitF sep (l.length + 1) l

/-- Element `[1]` of a split result (guarded by containment at call
sites, so Python raises no IndexError there). -/
def idx1 (ls : List Cs) : Cs := (ls.drop 1).headD []

/-- Element `[0]` of a split result (a split is never empty). -/
def idx0 (ls : List Cs) : Cs := ls.headD []

/-- The triple-backtick-json fence marker. -/
def tbJson : Cs := "```json".data

/-- The triple-backtick fence marker. -/
def tb3 : Cs := "```".data

/-- Lines 87 to 90: strip markdown code fences. -/
def unwrapMarkdown (content : Cs) : Cs :=
  if hasSub tbJson content then idx0 (pySplit tb3 (idx1 (pySplit tbJson content)))
  else if hasSub tb3 content then idx0 (pySplit tb3 (idx1 (pySplit tb3 content)))
  else content

/-- Lines 84 to 102: markdown unwrap, boundary trim, _fix_json_issues and
the final unescaping of backslash-quote pairs. -/
def cleanContent (content : Cs) : Cs :=
  replBQ (fix_json_issues (boundaryTrim (unwrapMarkdown content)))

end EmailSender

namespace EmailSender

/-- JSON values as produced by `json.loads`. Numbers keep their lexeme,
which is all the pipeline ever needs (a number only matters as a non-string
value triggering an AttributeError or TypeError). -/
inductive JValue where
  | jnull
  | jbool (b : Bool)
  | jnum (lex : String)
  | jstr (s : String)
  | jarr (items : List JValue)
  | jobj (fields : List (String × JValue))

/-- The Python runtime type name of a decoded value, as it appears in
AttributeError and TypeError messages. -/
def jtypeName : JValue → String
  | .jnull => "NoneType"
  | .jbool _ => "bool"
  | .jnum lex => if lex.data.any (fun c => c = '.' ∨ c = 'e' ∨ c = 'E') then "float" else "int"
  | .jstr _ => "str"
  | .jarr _ => "list"
  | .jobj _ => "dict"

/-- Lookup in a decoded JSON object: Python dict semantics give the value
of the last occurrence of a duplicated key. -/
def objGet (fields : List (String × JValue)) (k : String) : Option JValue :=
  fields.foldl (fun acc f => if f.1 = k then some f.2 else acc) none

/-- Python `k in d` on a decoded JSON object. -/
def objHasKey (fields : List (String × JValue)) (k : String) : Bool :=
  fields.any (·.1 = k)

/-- Skip JSON inter-token whitespace. -/
def skipWs (l : Cs) : Cs := l.dropWhile isJsonWs

/-- Hex digit value. -/
def hexVal (c : Char) : Option Nat :=
  if '0' ≤ c ∧ c ≤ '9' then some (c.toNat - 48)
  else if 'a' ≤ c ∧ c ≤ 'f' then some (c.toNat - 87)
  else if 'A' ≤ c ∧ c ≤ 'F' then some (c.toNat - 70)
  else none

/-- JSON string body after the opening quote: returns the decoded content
and the rest after the closing quote. Raw control characters are rejected,
as by Python json in strict mode. -/
def parseStrBody : Cs → Option (Cs × Cs)
  | [] => none
  | c :: rest =>
    if c = dqu then some ([], rest)
    else if c = bsl then
      match rest with
      | [] => none
      | e :: rest2 =>
        if e = dqu then (parseStrBody rest2).map fun pr => (dqu :: pr.1, pr.2)
        else if e = bsl then (parseStrBody rest2).map fun pr => (bsl :: pr.1, pr.2)
        else if e = '/' then (parseStrBody rest2).map fun pr => ('/' :: pr.1, pr.2)
        else if e = 'b' then (parseStrBody rest2).map fun pr => (Char.ofNat 8 :: pr.1, pr.2)
        else if e = 'f' then (parseStrBody rest2).map fun pr => (Char.ofNat 12 :: pr.1, pr.2)
        else if e = 'n' then (parseStrBody rest2).map fun pr => ('\n' :: pr.1, pr.2)
        else if e = 'r' then (parseStrBody rest2).map fun pr => ('\r' :: pr.1, pr.2)
        else if e = 't' then (parseStrBody rest2).map fun pr => ('\t' :: pr.1, pr.2)
        else if e = 'u' then
          match rest2 with
          | h1 :: h2 :: h3 :: h4 :: rest3 =>
            match hexVal h1, hexVal h2, hexVal h3, hexVal h4 with
            | some v1, some v2, some v3, some v4 =>
              (parseStrBody rest3).map fun pr =>
                (Char.ofNat (((v1 * 16 + v2) * 16 + v3) * 16 + v4) :: pr.1, pr.2)
            | _, _, _, _ => none
          | _ => none
        else none
    else if c.toNat < 32 then none
    else (parseStrBody rest).map fun pr => (c :: pr.1, pr.2)

/-- The digit run at the head. -/
def digRun (l : Cs) : Cs := l.takeWhile Char.isDigit

/-- Rest after the digit run at the head. -/
def digRest (l : Cs) : Cs := l.dropWhile Char.isDigit

/-- Exponent part of a JSON number, if present. -/
def parseExpPart (acc : Cs) (l : Cs) : Option (Cs × Cs) :=
  match l with
  | e :: r =>
    if e = 'e' ∨ e = 'E' then
      match r with
      | s :: r2 =>
        if s = '+' ∨ s = '-' then
          if (digRun r2).length = 0 then none
          else some (acc ++ e :: s :: digRun r2, digRest r2)
        else if (digRun r).length = 0 then none
        else some (acc ++ e :: digRun r, digRest r)
      | [] => none
    else some (acc, l)
  | [] => some (acc, l)

/-- Fraction and exponent parts of a JSON number. -/
def parseFracPart (acc : Cs) (l : Cs) : Option (Cs × Cs) :=
  match l with
  | d :: r =>
    if d = '.' then
      if (digRun r).length = 0 then none
      else parseExpPart (acc ++ d :: digRun r) (digRest r)
    else parseExpPart acc l
  | [] => parseExpPart acc l

/-- A JSON number literal at the head: returns its lexeme and the rest. -/
def parseNum (l : Cs) : Option (Cs × Cs) :=
  let (neg, l1) : Cs × Cs :=
    match l with
    | c :: r => if c = '-' then ([c], r) else ([], l)
    | [] => ([], l)
  match l1 with
  | [] => none
  | d :: r =>
    if d = '0' then parseFracPart (neg ++ [d]) r
    else if d.isDigit then parseFracPart (neg ++ d :: digRun r) (digRest r)
    else none

mutual

/-- One JSON value at the head of the input (no leading whitespace),
fuel-indexed. -/
def parseVal : Nat → Cs → Option (JValue × Cs)
  | 0, _ => none
  | _ + 1, [] => none
  | fuel + 1, c :: rest =>
    if c = obr then
      match skipWs rest with
      | c2 :: r2 => if c2 = cbr then some (.jobj [], r2) else parseMembers fuel (skipWs rest) []
      | [] => none
    else if c = '[' then
      match skipWs rest with
      | c2 :: r2 => if c2 = ']' then some (.jarr [], r2) else parseItems fuel (skipWs rest) []
      | [] => none
    else if c = dqu then
      (parseStrBody rest).map fun pr => (.jstr (String.mk pr.1), pr.2)
    else if c = 't' then
      if isStartOf "rue".data rest then some (.jbool true, rest.drop 3) else none
    else if c = 'f' then
      if isStartOf "alse".data rest then some (.jbool false, rest.drop 4) else none
    else if c = 'n' then
      if isStartOf "ull".data rest then some (.jnull, rest.drop 3) else none
    else if c = '-' ∨ c.isDigit then
      (parseNum (c :: rest)).map fun pr => (.jnum (String.mk pr.1), pr.2)
    else none

/-- Members of a JSON object after the opening brace (at least one member,
input begins at a key), fuel-indexed. -/
def parseMembers : Nat → Cs → List (String × JValue) → Option (JValue × Cs)
  | 0, _, _ => none
  | fuel + 1, l, acc =>
    match l with
    | [] => none
    | c :: r =>
      if c = dqu then
        match parseStrBody r with
        | some (k, r2) =>
          match skipWs r2 with
          | ':' :: r3 =>
            match parseVal fuel (skipWs r3) with
            | some (v, r4) =>
              match skipWs r4 with
              | ',' :: r5 => parseMembers fuel (skipWs r5) (acc ++ [(String.mk k, v)])
              | c2 :: r5 =>
                if c2 = cbr then some (.jobj (acc ++ [(String.mk k, v)]), r5) else none
              | [] => none
            | none => none
          | _ => none
        | none => none
      else none

/-- Items of a JSON array after the opening bracket (at least one item,
input begins at a value), fuel-indexed. -/
def parseItems : Nat → Cs → List JValue → Option (JValue × Cs)
  | 0, _, _ => none
  | fuel + 1, l, acc =>
    match parseVal fuel l with
    | some (v, r) =>
      match skipWs r with
      | ',' :: r2 => parseItems fuel (skipWs r2) (acc ++ [v])
      | c :: r2 => if c = ']' then some (.jarr (acc ++ [v]), r2) else none
      | [] => none
    | none => none

end

/-- The JSON text with surrounding whitespace removed on both ends. -/
def stripJsonWs (l : Cs) : Cs :=
  ((l.dropWhile isJsonWs).reverse.dropWhile isJsonWs).reverse

/-- Python `json.loads`: parse one JSON value surrounded by optional
whitespace; anything else raises JSONDecodeError, modelled as `none`.
Stripping the surrounding whitespace first and requiring the parse to
consume the whole core is equivalent: a parsed value never ends in
whitespace, so a non-empty leftover inside the stripped core cannot be
all-whitespace either. -/
def json_loads (l : Cs) : Option JValue :=
  let core := stripJsonWs l
  match parseVal (2 * core.length + 2) core with
  | some (v, r) => if r.isEmpty then some v else none
  | none => none

end EmailSender

namespace EmailSender

/-- Message of a Python AttributeError on a missing attribute. -/
def attrErrMsg (tname attr : String) : String :=
  "'" ++ tname ++ "' object has no attribute '" ++ attr ++ "'"

/-- Message of a Python TypeError on iterating a non-iterable. -/
def typeErrNotIter (tname : String) : String :=
  "'" ++ tname ++ "' object is not iterable"

/-- One field of a company entry: `entry.get(key, "").strip()`. A present
non-string value raises AttributeError on `.strip()`. -/
def getFieldStr (g : List (String × JValue)) (k : String) : Except String String :=
  match (objGet g k).getD (.jstr "") with
  | .jstr s => .ok (pythonStrip s)
  | v => .error (attrErrMsg (jtypeName v) "strip")

/-- Build a RealCompany from one decoded object entry, fields evaluated in
source order (lines 132 to 141 and equally 454 to 463, 477 to 486). -/
def buildRecordE (g : List (String × JValue)) : Except String RealCompany := do
  let name ← getFieldStr g "name"
  let website ← getFieldStr g "website"
  let country ← getFieldStr g "country"
  let industry ← getFieldStr g "industry"
  let contact_name ← getFieldStr g "contact_name"
  let contact_title ← getFieldStr g "contact_title"
  let contact_email ← getFieldStr g "contact_email"
  let description ← getFieldStr g "description"
  return ⟨name, website, country, industry, contact_name, contact_title,
    contact_email, description⟩

/-- The truthiness filter of lines 143 to 148: keep a record only when
name, contact_name and contact_email are non-empty. -/
def keepRecord (r : RealCompany) : Bool :=
  r.name ≠ "" && r.contact_name ≠ "" && r.contact_email ≠ ""

/-- Lines 129 to 152, loop body: every entry must be a dict (otherwise
`.get` raises AttributeError, uncaught here), record fields are built and
the validity filter applied. -/
def strictLoop : List JValue → List RealCompany → Except String (List RealCompany)
  | [], acc => .ok acc
  | it :: rest, acc =>
    match it with
    | .jobj g =>
      match buildRecordE g with
      | .ok r => strictLoop rest (if keepRecord r then acc ++ [r] else acc)
      | .error m => .error m
    | v => .error (attrErrMsg (jtypeName v) "get")

/-- Lines 129 to 152: iterate `data.get("companies", [])`. A non-dict top
level raises AttributeError on `.get`; a non-list companies value is
iterated per Python semantics (string and dict iteration raise on the
first element via `.get`; numbers and booleans are not iterable). -/
def extract_companies (v : JValue) : Except String (List RealCompany) :=
  match v with
  | .jobj fields =>
    match (objGet fields "companies").getD (.jarr []) with
    | .jarr items => strictLoop items []
    | .jstr s => if s.isEmpty then .ok [] else .error (attrErrMsg "str" "get")
    | .jobj g => if g.isEmpty then .ok [] else .error (attrErrMsg "str" "get")
    | w => .error (typeErrNotIter (jtypeName w))
  | w => .error (attrErrMsg (jtypeName w) "get")

/-- Loop over a decoded list in _try_alternative_parsing: non-dict items
are skipped; a failing field build raises, which the surrounding bare
except turns into an early return of the accumulator so far (the Except
error value carries that accumulator). -/
def altArrLoop : List JValue → List RealCompany → Except (List RealCompany) (List RealCompany)
  | [], acc => .ok acc
  | it :: rest, acc =>
    match it with
    | .jobj g =>
      match buildRecordE g with
      | .ok r => altArrLoop rest (if keepRecord r then acc ++ [r] else acc)
      | .error _ => .error acc
    | _ => altArrLoop rest acc

/-- Second block of _try_alternative_parsing on a decoded object: try the
keys companies, results, data, items in order, accumulating valid records,
returning as soon as the accumulator is non-empty after a key; an
exception inside the loop returns the accumulator gathered so far. -/
def altKeyLoop (fields : List (String × JValue)) : List String → List RealCompany → List RealCompany
  | [], acc => acc
  | k :: ks, acc =>
    if objHasKey fields k then
      match objGet fields k with
      | some (.jarr items) =>
        match altArrLoop items acc with
        | .ok acc2 => if acc2.isEmpty then altKeyLoop fields ks acc2 else acc2
        | .error accp => accp
      | _ => altKeyLoop fields ks acc
    else altKeyLoop fields ks acc

/-- _try_alternative_parsing (lines 444 to 494). Both blocks re-parse the
same text; a bare list is handled by the first block (which returns its
accumulator even when empty), an object by the second; a string or scalar
top level yields the empty accumulator (its membership tests either fail
or raise into the bare except). -/
def try_alternative_parsing (content : Cs) : List RealCompany :=
  match json_loads content with
  | none => []
  | some v =>
    match v with
    | .jarr items =>
      match altArrLoop items [] with
      | .ok cs => cs
      | .error accp => accp
    | .jobj fields => altKeyLoop fields ["companies", "results", "data", "items"] []
    | _ => []

/-- Is this character in the regex class of a double quote and a
backslash, used around `name` in the first manual-extraction split? -/
def isClassQB (c : Char) : Bool := c = dqu ∨ c = bsl

/-- Window test for the first split regex of _extract_companies_manually:
at offset k the six characters are class, n, a, m, e, class. -/
def w6pat1 (tail : Cs) (k : Nat) : Bool :=
  match tail.drop k with
  | c1 :: n1 :: a1 :: m1 :: e1 :: c2 :: _ =>
    isClassQB c1 && (n1 = 'n') && (a1 = 'a') && (m1 = 'm') && (e1 = 'e') && isClassQB c2
  | _ => false

/-- Window test for the alternative split regex: a plain quoted name. -/
def w6pat2 (tail : Cs) (k : Nat) : Bool :=
  match tail.drop k with
  | c1 :: n1 :: a1 :: m1 :: e1 :: c2 :: _ =>
    (c1 = dqu) && (n1 = 'n') && (a1 = 'a') && (m1 = 'm') && (e1 = 'e') && (c2 = dqu)
  | _ => false

/-- Greatest k at most the bound satisfying the window test (the greedy
backtracking of the possessive-free star in the split regex). -/
def maxKDown (ok : Nat → Bool) : Nat → Option Nat
  | 0 => if ok 0 then some 0 else none
  | k + 1 => if ok (k + 1) then some (k + 1) else maxKDown ok k

/-- Length consumed after an opening brace by the split regex: the
greedy non-brace run length k plus the six window characters, for the
largest admissible k. -/
def tagMatchLen (wok : Nat → Bool) (tail : Cs) : Option Nat :=
  (maxKDown wok (tail.takeWhile (fun c => c ≠ cbr)).length).map (· + 6)

/-- Leftmost match of the company-block split regex: start position and
total match length (including the opening brace). -/
def findTM (w6 : Cs → Nat → Bool) : Cs → Option (Nat × Nat)
  | [] => none
  | c :: rest =>
    if c = obr then
      match tagMatchLen (w6 rest) rest with
      | some klen => some (0, klen + 1)
      | none => (findTM w6 rest).map fun sl => (sl.1 + 1, sl.2)
    else (findTM w6 rest).map fun sl => (sl.1 + 1, sl.2)

theorem findTM_pos (w6 : Cs → Nat → Bool) (l : Cs) (s ln : Nat)
    (h : findTM w6 l = some (s, ln)) : 0 < l.length ∧ 0 < ln := by
  induction l generalizing s ln with
  | nil => simp [findTM] at h
  | cons c rest ih =>
    rw [findTM] at h
    by_cases hc : c = obr
    · rw [if_pos hc] at h
      rcases htm : tagMatchLen (w6 rest) rest with _ | klen
      · rw [htm] at h
        rcases hfs : findTM w6 rest with _ | ⟨s', ln'⟩
        · rw [hfs] at h
          exact Option.noConfusion h
        · rw [hfs] at h
          simp only [Option.map_some', Option.some.injEq] at h
          have := (ih s' ln' hfs).2
          have hln : ln = ln' := ((Prod.mk.injEq _ _ _ _).mp h).2.symm
          constructor
          · simp
          · omega
      · rw [htm] at h
        simp only [Option.some.injEq] at h
        have hln : ln = klen + 1 := ((Prod.mk.injEq _ _ _ _).mp h).2.symm
        constructor
        · simp
        · omega
    · rw [if_neg hc] at h
      rcases hfs : findTM w6 rest with _ | ⟨s', ln'⟩
      · rw [hfs] at h
        exact Option.noConfusion h
      · rw [hfs] at h
        simp only [Option.map_some', Option.some.injEq] at h
        have := (ih s' ln' hfs).2
        have hln : ln = ln' := ((Prod.mk.injEq _ _ _ _).mp h).2.symm
        constructor
        · simp
        · omega

/-- re.split on the company-block regex: the segments between successive
leftmost non-overlapping matches, fuel-indexed so that it reduces in the
kernel; fuel one beyond the input length is always sufficient, since each
match consumes at least one character. -/
def reSplitTagF (w6 : Cs → Nat → Bool) : Nat → Cs → List Cs
  | 0, l => [l]
  | fuel + 1, l =>
    match findTM w6 l with
    | none => [l]
    | some (s, ln) => l.take s :: reSplitTagF w6 fuel (l.drop (s + ln))

/-- re.split on the company-block regex. -/
def reSplitTag (w6 : Cs → Nat → Bool) (l : Cs) : List Cs :=
  reSplitTagF w6 (l.length + 1) l

end EmailSender

namespace EmailSender

/-- The escaped-quote capture of the manual-extraction regexes: a
backslash-quote pair, one or more non-quote characters, a backslash-quote
pair; returns the capture and the rest after the match. -/
def grabEsc (l : Cs) : Option (Cs × Cs) :=
  match l with
  | b :: q :: rest =>
    if b = bsl ∧ q = dqu then
      let u := rest.takeWhile fun c => c ≠ dqu
      match rest.dropWhile (fun c => c ≠ dqu) with
      | _ :: r3 =>
        if 2 ≤ u.length ∧ u.getLast? = some bsl then some (u.dropLast, r3) else none
      | [] => none
    else none
  | _ => none

theorem grabEsc_length (l cap r : Cs) (h : grabEsc l = some (cap, r)) :
    r.length < l.length := by
  match l with
  | [] => simp [grabEsc] at h
  | [c] => simp [grabEsc] at h
  | b :: q :: rest =>
    rw [grabEsc] at h
    by_cases hbq : b = bsl ∧ q = dqu
    · rw [if_pos hbq] at h
      rcases hdw : rest.dropWhile (fun c => c ≠ dqu) with _ | ⟨q2, r3⟩
      · rw [hdw] at h
        exact Option.noConfusion h
      · rw [hdw] at h
        dsimp only at h
        by_cases hc : 2 ≤ (rest.takeWhile fun c => c ≠ dqu).length ∧
            (rest.takeWhile fun c => c ≠ dqu).getLast? = some bsl
        · rw [if_pos hc] at h
          simp only [Option.some.injEq] at h
          have hr : r = r3 := ((Prod.mk.injEq _ _ _ _).mp h).2.symm
          have hlen : (q2 :: r3).length ≤ rest.length := by
            rw [← hdw]
            exact length_dropWhile_le _ rest
          rw [hr]
          simp only [List.length_cons] at hlen ⊢
          omega
        · rw [if_neg hc] at h
          exact Option.noConfusion h
    · rw [if_neg hbq] at h
      exact Option.noConfusion h

/-- Attempted match of the name regex of line 519 at the current position:
a quote, a colon, optional whitespace, then an escaped-quote capture. -/
def tryNameAt (l : Cs) : Option Cs :=
  match l with
  | q :: col :: rest =>
    if q = dqu ∧ col = ':' then (grabEsc (rest.dropWhile isReWs)).map (·.1)
    else none
  | _ => none

/-- re.search of the name regex of line 519: leftmost match. -/
def searchNameA : Cs → Option Cs
  | [] => none
  | c :: rest =>
    match tryNameAt (c :: rest) with
    | some cap => some cap
    | none => searchNameA rest

/-- Attempted match of a field regex of lines 533 to 539 at the current
position: escaped-quoted field name, colon, optional whitespace, then an
escaped-quote capture. -/
def tryFieldAt (fname : Cs) (l : Cs) : Option Cs :=
  if isStartOf ([bsl, dqu] ++ fname ++ [bsl, dqu, ':']) l then
    (grabEsc ((l.drop (fname.length + 5)).dropWhile isReWs)).map (·.1)
  else none

/-- re.search of a field regex: leftmost match. -/
def searchField (fname : Cs) : Cs → Option Cs
  | [] => none
  | c :: rest =>
    match tryFieldAt fname (c :: rest) with
    | some cap => some cap
    | none => searchField fname rest

/-- re.findall of the bare escaped-quote capture regex of line 524:
non-overlapping leftmost matches, fuel-indexed so that it reduces in the
kernel; fuel one beyond the input length is always sufficient, since each
match consumes at least one character. -/
def findallEscF : Nat → Cs → List Cs
  | 0, _ => []
  | fuel + 1, l =>
    match l with
    | [] => []
    | c :: rest =>
      match grabEsc (c :: rest) with
      | some capr => capr.1 :: findallEscF fuel capr.2
      | none => findallEscF fuel rest

/-- re.findall of the bare escaped-quote capture regex of line 524. -/
def findallEsc (l : Cs) : List Cs := findallEscF (l.length + 1) l

/-- Lines 523 to 531: the first quoted string that is neither the word
website nor an http-prefixed URL, used as the name when the direct name
regex fails. -/
def firstGoodQuoted (l : Cs) : Option Cs :=
  (findallEsc l).find? fun q =>
    (!(q == "website".data)) && (!(isStartOf "http".data q))

/-- A field value for the manual record: the regex capture, or the empty
string when the field regex finds no match. -/
def fieldOrEmpty (fname : String) (b : Cs) : String :=
  match searchField fname.data b with
  | some cap => String.mk cap
  | none => ""

/-- Lines 514 to 555, one block: locate a name (direct regex or fallback
quoted-string scan) and assemble the record with best-effort fields. -/
def blockRecord (b : Cs) : List RealCompany :=
  let nm : Option Cs :=
    match searchNameA b with
    | some cap => some cap
    | none => firstGoodQuoted b
  match nm with
  | none => []
  | some cap =>
    [⟨String.mk cap, fieldOrEmpty "website" b, fieldOrEmpty "country" b,
      fieldOrEmpty "industry" b, fieldOrEmpty "contact_name" b,
      fieldOrEmpty "contact_title" b, fieldOrEmpty "contact_email" b,
      fieldOrEmpty "description" b⟩]

/-- The records extracted from the blocks after the first. -/
def blocksRecords (blocks : List Cs) : List RealCompany :=
  (blocks.drop 1).foldl (fun acc b => acc ++ blockRecord b) []

/-- The effective block list of _extract_companies_manually: the first
split, or the alternative split when the first found no match. -/
def manualBlocks (content : Cs) : List Cs :=
  let blocks := reSplitTag w6pat1 content
  if blocks.length ≤ 1 then reSplitTag w6pat2 content else blocks

/-- _extract_companies_manually (lines 496 to 565): split into blocks,
extract a best-effort record per block, and when nothing was extracted
return the fallback catalog for the fixed ICP text technology companies
with the fixed count 5. -/
def extract_companies_manually (content : Cs) : List RealCompany :=
  let cs := blocksRecords (manualBlocks content)
  if cs.isEmpty then get_fallback_companies "technology companies" 5 else cs

/-- Lines 113 to 127: the JSONDecodeError branch on the cleaned content:
alternative parsing, then manual extraction, then fallback substitution. -/
def recoverAfterParseFail (icp : String) (num : Nat) (cl : Cs) :
    Except String (List RealCompany) :=
  let alt := try_alternative_parsing cl
  if alt.isEmpty then
    let man := extract_companies_manually cl
    if man.isEmpty then .ok (get_fallback_companies icp num) else .ok man
  else .ok alt

/-- The try block of generate_real_companies from the preflight on (lines
78 to 152), parameterised over the response content: a raised exception is
an `Except.error` carrying its message. -/
def tryBody (icp : String) (num : Nat) (content : String) :
    Except String (List RealCompany) :=
  if content = "" ∨ (stripChars content.data).length < 50 then
    .error "Incomplete response from API"
  else
    let cl := cleanContent content.data
    match json_loads cl with
    | some v => extract_companies v
    | none => recoverAfterParseFail icp num cl

/-- The rate-limit test of line 159 on an exception message. -/
def rateLimitCheck (msg : String) : Bool :=
  hasSub "rate".data (pyLower msg.data) || hasSub "429".data msg.data

/-- The message of the re-raised rate-limit exception (line 161). -/
def rateLimitMessage : String :=
  "Rate limit exceeded. Please wait a moment and try again."

/-- The except handler of lines 154 to 165: re-raise a distinguished
rate-limit exception, otherwise substitute the fallback catalog. -/
def handleGenError (icp : String) (num : Nat) (msg : String) :
    Except String (List RealCompany) :=
  if rateLimitCheck msg then .error rateLimitMessage
  else .ok (get_fallback_companies icp num)

/-- Wrap a try-block outcome with the except handler. -/
def runWithHandler (icp : String) (num : Nat)
    (r : Except String (List RealCompany)) : Except String (List RealCompany) :=
  match r with
  | .ok cs => .ok cs
  | .error m => handleGenError icp num m

/-- Rendering of `response.error` inside the f-string of line 73. -/
def errStr : Option String → String
  | some s => s
  | none => "None"

/-- generate_real_companies given the completion response: a failed
response raises inside the try (line 73), a successful one runs the
recovery pipeline on its content; the except handler closes the call. -/
def generate_real_companies (icp : String) (num : Nat) (resp : LLMResponse) :
    Except String (List RealCompany) :=
  runWithHandler icp num
    (if resp.success then tryBody icp num resp.content
     else .error ("LLM generation failed: " ++ errStr resp.error))

/-- generate_real_companies behaviour as a function of the successful
response content alone. -/
def generateViaContent (icp : String) (num : Nat) (content : String) :
    Except String (List RealCompany) :=
  runWithHandler icp num (tryBody icp num content)

end EmailSender

namespace EmailSender

theorem providerLoop_all_fail (rs : List LLMResponse)
    (h : ∀ q ∈ rs, q.success = false) :
    providerLoop rs = ⟨"", "none", "none", false, some "All LLM providers failed"⟩ := by
  induction rs with
  | nil => rfl
  | cons r rest ih =>
    rw [providerLoop]
    rw [h r (List.mem_cons_self r rest)]
    simp only [Bool.false_eq_true, if_false]
    exact ih fun q hq => h q (List.mem_cons_of_mem r hq)

theorem providerLoop_first_success (pre : List LLMResponse) (r : LLMResponse)
    (post : List LLMResponse) (hpre : ∀ q ∈ pre, q.success = false)
    (hr : r.success = true) : providerLoop (pre ++ r :: post) = r := by
  induction pre with
  | nil =>
    rw [List.nil_append, providerLoop, hr]
    simp
  | cons q pre' ih =>
    rw [List.cons_append, providerLoop]
    rw [hpre q (List.mem_cons_self q pre')]
    simp only [Bool.false_eq_true, if_false]
    exact ih fun q' hq' => hpre q' (List.mem_cons_of_mem q hq')

/-- C3: LLMManager.generate_completion tries the retained providers in
order, returns the first successful response without consulting any later
provider (the result does not depend on the providers after the first
success), and when every provider fails, or none is retained, returns a
synthetic failure response with success false and provider "none". -/
theorem manager_failover_first_success :
    (∀ (pre : List LLMResponse) (r : LLMResponse) (post : List LLMResponse),
      (∀ q ∈ pre, q.success = false) → r.success = true →
      manager_generate_completion (pre ++ r :: post) = r) ∧
    (∀ rs : List LLMResponse, (∀ q ∈ rs, q.success = false) →
      (manager_generate_completion rs).success = false ∧
        (manager_generate_completion rs).provider = "none") := by
  constructor
  · intro pre r post hpre hr
    rw [manager_generate_completion]
    rw [if_neg (by simp)]
    exact providerLoop_first_success pre r post hpre hr
  · intro rs h
    rw [manager_generate_completion]
    by_cases hrs : rs = []
    · rw [if_pos hrs]
      exact ⟨rfl, rfl⟩
    · rw [if_neg hrs, providerLoop_all_fail rs h]
      exact ⟨rfl, rfl⟩

/-- A provider response that fails at call time. -/
def respP2 : LLMResponse := ⟨"", "llama-3.3-70b-versatile", "Groq", false, some "HTTP 500: upstream error"⟩

/-- A provider response that succeeds. -/
def respP3 : LLMResponse := ⟨"hello", "meta-llama/Llama-2-7b-chat-hf", "Together AI", true, none⟩

/-- A later provider that would also succeed but must not be consulted. -/
def respP4 : LLMResponse := ⟨"other", "microsoft/DialoGPT-medium", "Hugging Face", true, none⟩

theorem manager_failover_first_success_witness :
    manager_generate_completion [respP2, respP3, respP4] = respP3 ∧
    (manager_generate_completion [respP2]).success = false ∧
    (manager_generate_completion [respP2]).provider = "none" ∧
    (manager_generate_completion []).success = false ∧
    (manager_generate_completion []).provider = "none" := by
  refine ⟨?_, ?_, ?_, ?_, ?_⟩
  · exact manager_failover_first_success.1 [respP2] respP3 [respP4] (by decide) (by decide)
  · exact (manager_failover_first_success.2 [respP2] (by decide)).1
  · exact (manager_failover_first_success.2 [respP2] (by decide)).2
  · exact (manager_failover_first_success.2 [] (by decide)).1
  · exact (manager_failover_first_success.2 [] (by decide)).2

/-- C4: every exception raised during generation whose message contains
the substring "rate" after lowercasing, or the substring "429", is
re-raised as the distinguished rate-limit exception; every other raised
message leads to fallback substitution instead. -/
theorem rate_limit_dispatch (icp : String) (num : Nat) (resp : LLMResponse)
    (msg : String)
    (h : (if resp.success then tryBody icp num resp.content
          else .error ("LLM generation failed: " ++ errStr resp.error)) =
         .error msg) :
    (hasSub "rate".data (pyLower msg.data) = true ∨ hasSub "429".data msg.data = true →
      generate_real_companies icp num resp = .error rateLimitMessage) ∧
    (hasSub "rate".data (pyLower msg.data) = false → hasSub "429".data msg.data = false →
      generate_real_companies icp num resp = .ok (get_fallback_companies icp num)) := by
  constructor
  · intro hrate
    rw [generate_real_companies, h]
    rw [runWithHandler, handleGenError]
    rw [if_pos ?_]
    rw [rateLimitCheck]
    rcases hrate with h1 | h1
    · rw [h1]
      simp
    · rw [h1]
      simp
  · intro h1 h2
    rw [generate_real_companies, h]
    rw [runWithHandler, handleGenError]
    rw [if_neg ?_]
    rw [rateLimitCheck, h1, h2]
    simp

/-- A failed response carrying a 429 status in its error text. -/
def resp429 : LLMResponse := ⟨"", "llama-3.3-70b-versatile", "Groq", false, some "HTTP 429: Too Many Requests"⟩

/-- A failed response carrying an unrelated error text. -/
def resp500 : LLMResponse := ⟨"", "llama-3.3-70b-versatile", "Groq", false, some "HTTP 500: upstream error"⟩

theorem rate_limit_dispatch_witness :
    generate_real_companies "US gaming startups" 3 resp429 = .error rateLimitMessage ∧
    generate_real_companies "US gaming startups" 3 resp500 =
      .ok (get_fallback_companies "US gaming startups" 3) := by
  constructor
  · exact (rate_limit_dispatch "US gaming startups" 3 resp429
      "LLM generation failed: HTTP 429: Too Many Requests" rfl).1 (Or.inr (by decide))
  · exact (rate_limit_dispatch "US gaming startups" 3 resp500
      "LLM generation failed: HTTP 500: upstream error" rfl).2 (by decide) (by decide)

/-- C5: on content that is empty or whose trimmed length is below the
50-character preflight threshold, the recovery stages are skipped
entirely: the try block raises the incomplete-response exception, no
record is recovered from the text, and the call absorbs the exception and
substitutes the fallback catalog, so no unhandled exception escapes. -/
theorem short_input_total_failure (icp : String) (num : Nat) (content : String)
    (h : content = "" ∨ (stripChars content.data).length < 50) :
    tryBody icp num content = .error "Incomplete response from API" ∧
    generateViaContent icp num content = .ok (get_fallback_companies icp num) := by
  have ht : tryBody icp num content = .error "Incomplete response from API" := by
    rw [tryBody, if_pos h]
  refine ⟨ht, ?_⟩
  rw [generateViaContent, ht, runWithHandler, handleGenError]
  rw [if_neg (by decide)]

theorem short_input_total_failure_witness :
    tryBody "JP gaming" 4 "too short" = .error "Incomplete response from API" ∧
    generateViaContent "JP gaming" 4 "too short" =
      .ok (get_fallback_companies "JP gaming" 4) :=
  short_input_total_failure "JP gaming" 4 "too short" (Or.inr (by decide))

/-- C7: fallback selection matches country keywords first (US by
default), then industry keywords in the fixed order AI, gaming, VR/AR,
tech (tech by default), and truncates the selected bucket to the
requested count without padding: ten requested gaming records yield
exactly the three stored gaming companies. -/
theorem fallback_selection_policy :
    (∀ (icp : String) (num : Nat), (get_fallback_companies icp num).length ≤ num) ∧
    get_fallback_companies "gaming" 10 = gamingUS ∧
    gamingUS.length = 3 ∧
    get_fallback_companies "ai gaming" 5 = aiUS ∧
    get_fallback_companies "" 10 = techUS ∧
    get_fallback_companies "technology startups in japan" 2 = techJP.take 2 := by
  refine ⟨?_, by decide, by decide, by decide, by decide, by decide⟩
  intro icp num
  rw [get_fallback_companies]
  exact List.length_take_le num _

/-- C10: when the manual-extraction block loop yields no record at all,
_extract_companies_manually does not merely report failure: it itself
returns the fallback catalog for the fixed ICP text "technology
companies" and the fixed count 5 (the function does not even receive the
caller's ICP text or requested count). -/
theorem manual_extraction_fixed_fallback (content : Cs)
    (h : blocksRecords (manualBlocks content) = []) :
    extract_companies_manually content =
      get_fallback_companies "technology companies" 5 := by
  rw [extract_companies_manually, h]
  rfl

theorem manual_extraction_fixed_fallback_witness :
    extract_companies_manually "no json here at all".data =
      get_fallback_companies "technology companies" 5 :=
  manual_extraction_fixed_fallback "no json here at all".data rfl

end EmailSender

namespace EmailSender

/-- Big-step relation describing one run of the recovery pipeline on a
successful response content: preflight, cleaning, strict parse and the
branch taken, each premise an observation of the deterministic stage
functions. -/
inductive PipelineRun (icp : String) (num : Nat) :
    String → Except String (List RealCompany) → Prop where
  | tooShort (content : String)
      (hshort : content = "" ∨ (stripChars content.data).length < 50) :
      PipelineRun icp num content
        (runWithHandler icp num (.error "Incomplete response from API"))
  | parsed (content : String) (v : JValue)
      (hlong : ¬(content = "" ∨ (stripChars content.data).length < 50))
      (hparse : json_loads (cleanContent content.data) = some v) :
      PipelineRun icp num content (runWithHandler icp num (extract_companies v))
  | unparsed (content : String)
      (hlong : ¬(content = "" ∨ (stripChars content.data).length < 50))
      (hparse : json_loads (cleanContent content.data) = none) :
      PipelineRun icp num content
        (runWithHandler icp num
          (recoverAfterParseFail icp num (cleanContent content.data)))

/-- Every content admits the run computed by the pipeline functions. -/
theorem pipelineRun_total (icp : String) (num : Nat) (content : String) :
    PipelineRun icp num content (generateViaContent icp num content) := by
  by_cases hshort : content = "" ∨ (stripChars content.data).length < 50
  · have : generateViaContent icp num content =
        runWithHandler icp num (.error "Incomplete response from API") := by
      rw [generateViaContent, tryBody, if_pos hshort]
    rw [this]
    exact .tooShort content hshort
  · rcases hparse : json_loads (cleanContent content.data) with _ | v
    · have : generateViaContent icp num content =
          runWithHandler icp num
            (recoverAfterParseFail icp num (cleanContent content.data)) := by
        rw [generateViaContent, tryBody, if_neg hshort]
        dsimp only
        rw [hparse]
      rw [this]
      exact .unparsed content hshort hparse
    · have : generateViaContent icp num content =
          runWithHandler icp num (extract_companies v) := by
        rw [generateViaContent, tryBody, if_neg hshort]
        dsimp only
        rw [hparse]
      rw [this]
      exact .parsed content v hshort hparse

/-- C9: the recovery pipeline is deterministic: two runs on the same raw
text produce the same outcome (there is no hidden randomness in any
stage). -/
theorem pipeline_deterministic (icp : String) (num : Nat) (content : String)
    (r1 r2 : Except String (List RealCompany))
    (h1 : PipelineRun icp num content r1) (h2 : PipelineRun icp num content r2) :
    r1 = r2 := by
  cases h1 with
  | tooShort hs1 =>
    cases h2 with
    | tooShort _ => rfl
    | parsed v hl2 _ => exact absurd hs1 hl2
    | unparsed hl2 _ => exact absurd hs1 hl2
  | parsed v1 hl1 hp1 =>
    cases h2 with
    | tooShort hs2 => exact absurd hs2 hl1
    | parsed v2 _ hp2 =>
      rw [hp1] at hp2
      rw [Option.some.injEq] at hp2
      rw [hp2]
    | unparsed _ hp2 =>
      rw [hp1] at hp2
      exact Option.noConfusion hp2
  | unparsed hl1 hp1 =>
    cases h2 with
    | tooShort hs2 => exact absurd hs2 hl1
    | parsed v2 _ hp2 =>
      rw [hp1] at hp2
      exact Option.noConfusion hp2
    | unparsed _ _ => rfl

theorem pipeline_deterministic_witness :
    runWithHandler "US AI" 2 (.error "Incomplete response from API") =
      runWithHandler "US AI" 2 (.error "Incomplete response from API") :=
  pipeline_deterministic "US AI" 2 "hi" _ _
    (.tooShort "hi" (Or.inr (by decide)))
    (.tooShort "hi" (Or.inr (by decide)))

/-- A successful completion response with the given content. -/
def okResp (content : String) : LLMResponse :=
  ⟨content, "llama-3.3-70b-versatile", "Groq", true, none⟩

/-- Syntactically valid JSON whose only entry is discarded by the validity
check (no contact fields). -/
def c1content : String :=
  "\x7b\"companies\": [\x7b\"name\": \"OnlyName Incorporated Ltd\", \"website\": \"https://x.com\"\x7d]\x7d"

/-- The decoded value of c1content. -/
def c1val : JValue :=
  .jobj [("companies", .jarr [.jobj [("name", .jstr "OnlyName Incorporated Ltd"),
    ("website", .jstr "https://x.com")]])]

/-- C1 counterexample: on this response the strict parse succeeds, the
single entry is discarded by the validity check, and the entry point
returns the empty list to the caller, contradicting the claim that it
proceeds to manual extraction and fallback substitution and never returns
an empty list. -/
theorem strict_parse_empty_returns_empty :
    json_loads (cleanContent c1content.data) = some c1val ∧
    generate_real_companies "US AI startups" 10 (okResp c1content) = .ok [] := by
  constructor
  · rfl
  · rfl

/-- C1 amended: when the strict parse succeeds and the validity check
discards every entry, the entry point returns the empty list; manual
extraction and fallback substitution run only when the strict parse
raises. The caller still never sees an unhandled parse exception, but it
can receive an empty list. -/
theorem strict_parse_empty_list_behaviour (icp : String) (num : Nat)
    (content : String) (v : JValue)
    (hlong : ¬(content = "" ∨ (stripChars content.data).length < 50))
    (hparse : json_loads (cleanContent content.data) = some v)
    (hempty : extract_companies v = .ok []) :
    generateViaContent icp num content = .ok [] := by
  rw [generateViaContent, tryBody, if_neg hlong]
  dsimp only
  rw [hparse]
  show runWithHandler icp num (extract_companies v) = .ok []
  rw [hempty]
  rfl

theorem strict_parse_empty_list_behaviour_witness :
    generateViaContent "US AI startups" 10 c1content = .ok [] :=
  strict_parse_empty_list_behaviour "US AI startups" 10 c1content c1val
    (by decide) rfl rfl

/-- JSON carrying its list under the alternate container key results. -/
def c6content : String :=
  "\x7b\"results\": [\x7b\"name\": \"Acme Incorporated\", \"contact_name\": \"Jo Lee\", \"contact_email\": \"jo@acme.com\"\x7d]\x7d"

/-- The decoded value of c6content. -/
def c6val : JValue :=
  .jobj [("results", .jarr [.jobj [("name", .jstr "Acme Incorporated"),
    ("contact_name", .jstr "Jo Lee"), ("contact_email", .jstr "jo@acme.com")]])]

/-- The valid record stored under the results key of c6content. -/
def acmeRec : RealCompany :=
  ⟨"Acme Incorporated", "", "", "", "Jo Lee", "", "jo@acme.com", ""⟩

/-- C6 counterexample: the strict parse succeeds on this response and the
results key holds a valid record (the alternative-parsing routine can
recover it from the same text), yet the pipeline returns the empty list:
after a successful strict parse no alternate container key is checked. -/
theorem successful_parse_ignores_alternate_keys :
    json_loads (cleanContent c6content.data) = some c6val ∧
    try_alternative_parsing c6content.data = [acmeRec] ∧
    generate_real_companies "x" 10 (okResp c6content) = .ok [] := by
  refine ⟨rfl, rfl, rfl⟩

/-- C6 amended: after a successful strict parse only the companies key is
consulted (the outcome depends only on that key's value); the alternate
container keys results, data, items and the bare top-level array are
handled only by the alternative-parsing routine, which the pipeline
invokes only after a strict parse failure, where re-parsing the same
unparseable text yields no records. -/
theorem strict_parse_only_companies_key :
    (∀ f1 f2 : List (String × JValue), objGet f1 "companies" = objGet f2 "companies" →
      extract_companies (.jobj f1) = extract_companies (.jobj f2)) ∧
    (∀ cl : Cs, json_loads cl = none → try_alternative_parsing cl = []) := by
  constructor
  · intro f1 f2 h
    rw [extract_companies, extract_companies, h]
  · intro cl h
    rw [try_alternative_parsing, h]

theorem strict_parse_only_companies_key_witness :
    extract_companies (.jobj [("results", .jarr [.jobj [("name", .jstr "A")]])]) =
      extract_companies (.jobj []) ∧
    try_alternative_parsing "not json".data = [] := by
  constructor
  · exact strict_parse_only_companies_key.1
      [("results", .jarr [.jobj [("name", .jstr "A")]])] [] rfl
  · exact strict_parse_only_companies_key.2 "not json".data rfl

end EmailSender

namespace EmailSender

theorem head?_dropWhile (p : Char → Bool) (l : Cs) (c : Char)
    (h : (l.dropWhile p).head? = some c) : p c = false := by
  induction l with
  | nil => simp [List.dropWhile] at h
  | cons a rest ih =>
    rw [List.dropWhile_cons] at h
    by_cases hpa : p a
    · rw [if_pos hpa] at h
      exact ih h
    · rw [if_neg hpa] at h
      simp only [List.head?_cons, Option.some.injEq] at h
      rw [h] at hpa
      simpa using hpa

theorem dropWhile_eq_self_of_head (p : Char → Bool) (l : Cs)
    (h : ∀ c, l.head? = some c → p c = false) : l.dropWhile p = l := by
  cases l with
  | nil => rfl
  | cons a rest =>
    rw [List.dropWhile_cons, h a rfl]
    simp

theorem getLast?_dropWhile (p : Char → Bool) (l : Cs)
    (h : l.dropWhile p ≠ []) : (l.dropWhile p).getLast? = l.getLast? := by
  induction l with
  | nil => simp [List.dropWhile] at h
  | cons a rest ih =>
    rw [List.dropWhile_cons]
    by_cases hpa : p a
    · rw [List.dropWhile_cons, if_pos hpa] at h
      rw [if_pos hpa]
      rcases hr : rest with _ | ⟨b, rest'⟩
      · rw [hr] at h
        simp [List.dropWhile] at h
      · rw [← hr, ih (hr ▸ h), hr]
        exact (List.getLast?_cons_cons).symm
    · rw [if_neg hpa]

theorem stripChars_ne_nil_head (l : Cs) (c : Char)
    (h : (stripChars l).head? = some c) : isPyWs c = false := by
  rw [stripChars] at h
  rw [List.head?_reverse] at h
  have hne : (((l.dropWhile isPyWs).reverse).dropWhile isPyWs) ≠ [] := by
    intro hnil
    rw [hnil] at h
    simp at h
  rw [getLast?_dropWhile isPyWs _ hne] at h
  rw [List.getLast?_reverse] at h
  exact head?_dropWhile isPyWs l c h

theorem stripChars_ne_nil_last (l : Cs) (c : Char)
    (h : (stripChars l).getLast? = some c) : isPyWs c = false := by
  rw [stripChars] at h
  rw [List.getLast?_reverse] at h
  exact head?_dropWhile isPyWs _ c h

theorem stripChars_idem (l : Cs) : stripChars (stripChars l) = stripChars l := by
  by_cases hnil : stripChars l = []
  · rw [hnil]
    rfl
  · have h1 : (stripChars l).dropWhile isPyWs = stripChars l :=
      dropWhile_eq_self_of_head isPyWs _ (stripChars_ne_nil_head l)
    have h2 : (stripChars l).reverse.dropWhile isPyWs = (stripChars l).reverse := by
      refine dropWhile_eq_self_of_head isPyWs _ ?_
      intro c hc
      rw [List.head?_reverse] at hc
      exact stripChars_ne_nil_last l c hc
    show ((((stripChars l).dropWhile isPyWs).reverse).dropWhile isPyWs).reverse = stripChars l
    rw [h1, h2, List.reverse_reverse]

theorem pythonStrip_idem (s : String) : pythonStrip (pythonStrip s) = pythonStrip s := by
  show String.mk (stripChars (stripChars s.data)) = pythonStrip s
  rw [stripChars_idem]
  rfl

theorem except_bind_ok {ε α β : Type} (x : Except ε α) (f : α → Except ε β) (b : β) :
    (x >>= f) = .ok b ↔ ∃ a, x = .ok a ∧ f a = .ok b := by
  cases x with
  | error e =>
    constructor
    · intro h
      exact Except.noConfusion h
    · rintro ⟨a, ha, _⟩
      exact Except.noConfusion ha
  | ok a =>
    constructor
    · intro h
      exact ⟨a, rfl, h⟩
    · rintro ⟨a', ha, hf⟩
      rw [Except.ok.injEq] at ha
      rw [ha]
      exact hf

theorem except_pure_ok {ε α : Type} (a b : α) :
    (pure a : Except ε α) = .ok b ↔ a = b := by
  constructor
  · intro h
    exact Except.ok.inj h
  · intro h
    rw [h]
    rfl

theorem getFieldStr_stripped (g : List (String × JValue)) (k s : String)
    (h : getFieldStr g k = .ok s) : pythonStrip s = s := by
  rw [getFieldStr] at h
  rcases hv : (objGet g k).getD (.jstr "") with _ | b | lex | t | its | fs <;>
    rw [hv] at h <;> dsimp only at h
  case jstr =>
    rw [Except.ok.injEq] at h
    rw [← h]
    exact pythonStrip_idem t
  all_goals exact Except.noConfusion h

theorem buildRecordE_stripped (g : List (String × JValue)) (r : RealCompany)
    (h : buildRecordE g = .ok r) :
    pythonStrip r.name = r.name ∧ pythonStrip r.contact_name = r.contact_name ∧
      pythonStrip r.contact_email = r.contact_email := by
  rw [buildRecordE] at h
  simp only [except_bind_ok, except_pure_ok] at h
  obtain ⟨a1, h1, a2, h2, a3, h3, a4, h4, a5, h5, a6, h6, a7, h7, a8, h8, hr⟩ := h
  rw [← hr]
  exact ⟨getFieldStr_stripped g "name" a1 h1,
    getFieldStr_stripped g "contact_name" a5 h5,
    getFieldStr_stripped g "contact_email" a7 h7⟩

theorem keep_build_valid (g : List (String × JValue)) (r : RealCompany)
    (hb : buildRecordE g = .ok r) (hk : keepRecord r = true) : validRecord r := by
  obtain ⟨h1, h2, h3⟩ := buildRecordE_stripped g r hb
  rw [keepRecord] at hk
  simp only [Bool.and_eq_true, decide_eq_true_eq] at hk
  exact ⟨h1.symm ▸ hk.1.1, h2.symm ▸ hk.1.2, h3.symm ▸ hk.2⟩

theorem strictLoop_valid (items : List JValue) :
    ∀ (acc cs : List RealCompany), (∀ r ∈ acc, validRecord r) →
    strictLoop items acc = .ok cs → ∀ r ∈ cs, validRecord r := by
  induction items with
  | nil =>
    intro acc cs hacc h
    rw [strictLoop, Except.ok.injEq] at h
    rw [← h]
    exact hacc
  | cons it rest ih =>
    intro acc cs hacc h
    rcases it with _ | _ | _ | _ | _ | g
    case jobj =>
      rw [strictLoop] at h
      rcases hb : buildRecordE g with m | r0
      · rw [hb] at h
        exact Except.noConfusion h
      · rw [hb] at h
        refine ih _ cs ?_ h
        by_cases hk : keepRecord r0 = true
        · rw [if_pos hk]
          intro r hr
          rcases List.mem_append.mp hr with hr | hr
          · exact hacc r hr
          · rw [List.mem_singleton.mp hr]
            exact keep_build_valid g r0 hb hk
        · rw [if_neg hk]
          exact hacc
    all_goals exact Except.noConfusion h

theorem extract_companies_valid (v : JValue) (cs : List RealCompany)
    (h : extract_companies v = .ok cs) : ∀ r ∈ cs, validRecord r := by
  rcases v with _ | _ | _ | _ | _ | fields
  case jobj =>
    rw [extract_companies] at h
    rcases hv : (objGet fields "companies").getD (.jarr []) with _ | _ | _ | s | items | g <;>
      rw [hv] at h <;> dsimp only at h
    · exact Except.noConfusion h
    · exact Except.noConfusion h
    · exact Except.noConfusion h
    · by_cases hs : s.isEmpty
      · rw [if_pos hs, Except.ok.injEq] at h
        rw [← h]
        intro r hr
        exact absurd hr (List.not_mem_nil r)
      · rw [if_neg hs] at h
        exact Except.noConfusion h
    · exact strictLoop_valid items [] cs (by intro r hr; exact absurd hr (List.not_mem_nil r)) h
    · by_cases hg : g.isEmpty
      · rw [if_pos hg, Except.ok.injEq] at h
        rw [← h]
        intro r hr
        exact absurd hr (List.not_mem_nil r)
      · rw [if_neg hg] at h
        exact Except.noConfusion h
  all_goals rw [extract_companies] at h <;> exact Except.noConfusion h

/-- The list carried by either side of the alternative-parsing loop
outcome (normal completion, or accumulator at the exception). -/
def resList (e : Except (List RealCompany) (List RealCompany)) : List RealCompany :=
  match e with
  | .ok l => l
  | .error l => l

theorem altArrLoop_valid (items : List JValue) :
    ∀ acc : List RealCompany, (∀ r ∈ acc, validRecord r) →
    ∀ r ∈ resList (altArrLoop items acc), validRecord r := by
  induction items with
  | nil => intro acc hacc; exact hacc
  | cons it rest ih =>
    intro acc hacc
    rcases it with _ | _ | _ | _ | _ | g
    case jobj =>
      rw [altArrLoop]
      rcases hb : buildRecordE g with m | r0
      · exact hacc
      · refine ih _ ?_
        by_cases hk : keepRecord r0 = true
        · rw [if_pos hk]
          intro r hr
          rcases List.mem_append.mp hr with hr | hr
          · exact hacc r hr
          · rw [List.mem_singleton.mp hr]
            exact keep_build_valid g r0 hb hk
        · rw [if_neg hk]
          exact hacc
    all_goals exact ih acc hacc

theorem altKeyLoop_valid (keys : List String) (fields : List (String × JValue)) :
    ∀ acc : List RealCompany, (∀ r ∈ acc, validRecord r) →
    ∀ r ∈ altKeyLoop fields keys acc, validRecord r := by
  induction keys with
  | nil => intro acc hacc; exact hacc
  | cons k ks ih =>
    intro acc hacc
    rw [altKeyLoop]
    by_cases hk : objHasKey fields k
    · rw [if_pos hk]
      rcases hv : objGet fields k with _ | v
      · exact ih acc hacc
      · rcases v with _ | _ | _ | _ | items | _
        · exact ih acc hacc
        · exact ih acc hacc
        · exact ih acc hacc
        · exact ih acc hacc
        · dsimp only
          rcases ha : altArrLoop items acc with accp | acc2
          · have hthis := altArrLoop_valid items acc hacc
            rw [ha] at hthis
            exact hthis
          · have hv2 := altArrLoop_valid items acc hacc
            rw [ha] at hv2
            dsimp only
            by_cases he : acc2.isEmpty
            · rw [if_pos he]
              exact ih acc2 hv2
            · rw [if_neg he]
              exact hv2
        · exact ih acc hacc
    · rw [if_neg hk]
      exact ih acc hacc

theorem try_alternative_parsing_valid (cl : Cs) :
    ∀ r ∈ try_alternative_parsing cl, validRecord r := by
  rw [try_alternative_parsing]
  rcases hl : json_loads cl with _ | v
  · intro r hr
    exact absurd hr (List.not_mem_nil r)
  · rcases v with _ | _ | _ | _ | items | fields
    · intro r hr
      exact absurd hr (List.not_mem_nil r)
    · intro r hr
      exact absurd hr (List.not_mem_nil r)
    · intro r hr
      exact absurd hr (List.not_mem_nil r)
    · intro r hr
      exact absurd hr (List.not_mem_nil r)
    · dsimp only
      have hbase : ∀ r ∈ ([] : List RealCompany), validRecord r := by
        intro r hr
        exact absurd hr (List.not_mem_nil r)
      have hthis := altArrLoop_valid items [] hbase
      rcases ha : altArrLoop items [] with accp | cs <;> rw [ha] at hthis <;> exact hthis
    · exact altKeyLoop_valid ["companies", "results", "data", "items"] fields []
        (by intro r hr; exact absurd hr (List.not_mem_nil r))

theorem techUS_valid : ∀ r ∈ techUS, validRecord r := by decide

theorem techJP_valid : ∀ r ∈ techJP, validRecord r := by decide

theorem aiUS_valid : ∀ r ∈ aiUS, validRecord r := by decide

theorem gamingUS_valid : ∀ r ∈ gamingUS, validRecord r := by decide

theorem vrUS_valid : ∀ r ∈ vrUS, validRecord r := by decide

theorem get_tech_valid (c : String) : ∀ r ∈ get_tech_companies c, validRecord r := by
  rw [get_tech_companies]
  split
  · exact techUS_valid
  · split
    · exact techJP_valid
    · exact aiUS_valid

theorem get_ai_valid (c : String) : ∀ r ∈ get_ai_companies c, validRecord r := by
  rw [get_ai_companies]
  split
  · exact aiUS_valid
  · exact get_tech_valid c

theorem get_gaming_valid (c : String) : ∀ r ∈ get_gaming_companies c, validRecord r := by
  rw [get_gaming_companies]
  split
  · exact gamingUS_valid
  · exact get_tech_valid c

theorem get_vr_valid (c : String) : ∀ r ∈ get_vr_companies c, validRecord r := by
  rw [get_vr_companies]
  split
  · exact vrUS_valid
  · exact get_tech_valid c

theorem fallback_catalog_valid (icp : String) (num : Nat) :
    ∀ r ∈ get_fallback_companies icp num, validRecord r := by
  intro r hr
  rw [get_fallback_companies] at hr
  have hr2 := List.mem_of_mem_take hr
  revert hr2
  split
  · exact fun h => get_ai_valid _ r h
  · split
    · exact fun h => get_gaming_valid _ r h
    · split
      · exact fun h => get_vr_valid _ r h
      · split
        · exact fun h => get_tech_valid _ r h
        · exact fun h => get_tech_valid _ r h

end EmailSender

namespace EmailSender

theorem grabEsc_cap_ne (l cap r : Cs) (h : grabEsc l = some (cap, r)) :
    cap ≠ [] := by
  match l with
  | [] => simp [grabEsc] at h
  | [c] => simp [grabEsc] at h
  | b :: q :: rest =>
    rw [grabEsc] at h
    by_cases hbq : b = bsl ∧ q = dqu
    · rw [if_pos hbq] at h
      rcases hdw : rest.dropWhile (fun c => c ≠ dqu) with _ | ⟨q2, r3⟩
      · rw [hdw] at h
        exact Option.noConfusion h
      · rw [hdw] at h
        dsimp only at h
        by_cases hc : 2 ≤ (rest.takeWhile fun c => c ≠ dqu).length ∧
            (rest.takeWhile fun c => c ≠ dqu).getLast? = some bsl
        · rw [if_pos hc] at h
          simp only [Option.some.injEq] at h
          have hcap : cap = (rest.takeWhile fun c => c ≠ dqu).dropLast :=
            ((Prod.mk.injEq _ _ _ _).mp h).1.symm
          rw [hcap]
          intro hnil
          obtain ⟨hc1, hc2⟩ := hc
          have h0 := congrArg List.length hnil
          rw [List.length_dropLast, List.length_nil] at h0
          omega
        · rw [if_neg hc] at h
          exact Option.noConfusion h
    · rw [if_neg hbq] at h
      exact Option.noConfusion h

theorem tryNameAt_cap_ne (l cap : Cs) (h : tryNameAt l = some cap) : cap ≠ [] := by
  match l with
  | [] => simp [tryNameAt] at h
  | [c] => simp [tryNameAt] at h
  | q :: col :: rest =>
    rw [tryNameAt] at h
    by_cases hqc : q = dqu ∧ col = ':'
    · rw [if_pos hqc] at h
      rcases hg : grabEsc (rest.dropWhile isReWs) with _ | ⟨cap2, r2⟩
      · rw [hg] at h
        exact Option.noConfusion h
      · rw [hg] at h
        simp only [Option.map_some', Option.some.injEq] at h
        rw [← h]
        exact grabEsc_cap_ne _ cap2 r2 hg
    · rw [if_neg hqc] at h
      exact Option.noConfusion h

theorem searchNameA_cap_ne (l cap : Cs) (h : searchNameA l = some cap) : cap ≠ [] := by
  induction l with
  | nil => simp [searchNameA] at h
  | cons c rest ih =>
    rw [searchNameA] at h
    rcases ht : tryNameAt (c :: rest) with _ | cap2
    · rw [ht] at h
      exact ih h
    · rw [ht] at h
      rw [Option.some.injEq] at h
      rw [← h]
      exact tryNameAt_cap_ne (c :: rest) cap2 ht

theorem findallEscF_cap_ne (fuel : Nat) :
    ∀ l cap, cap ∈ findallEscF fuel l → cap ≠ [] := by
  induction fuel with
  | zero => intro l cap h; simp [findallEscF] at h
  | succ fuel ih =>
    intro l cap h
    rcases l with _ | ⟨c, rest⟩
    · rw [findallEscF] at h
      exact absurd h (List.not_mem_nil cap)
    · rw [findallEscF] at h
      rcases hg : grabEsc (c :: rest) with _ | capr
      · rw [hg] at h
        exact ih rest cap h
      · rw [hg] at h
        rcases List.mem_cons.mp h with h1 | h1
        · rw [h1]
          exact grabEsc_cap_ne (c :: rest) capr.1 capr.2 (by rw [hg])
        · exact ih capr.2 cap h1

theorem firstGoodQuoted_cap_ne (l cap : Cs) (h : firstGoodQuoted l = some cap) :
    cap ≠ [] := by
  rw [firstGoodQuoted] at h
  have hmem := List.mem_of_find?_eq_some h
  exact findallEscF_cap_ne _ l cap hmem

theorem blockRecord_name_ne (b : Cs) (r : RealCompany) (h : r ∈ blockRecord b) :
    r.name ≠ "" := by
  rw [blockRecord] at h
  rcases hn : (match searchNameA b with
    | some cap => some cap
    | none => firstGoodQuoted b) with _ | cap
  · rw [hn] at h
    exact absurd h (List.not_mem_nil r)
  · rw [hn] at h
    rw [List.mem_singleton.mp h]
    have hne : cap ≠ [] := by
      rcases hs : searchNameA b with _ | cap2
      · rw [hs] at hn
        exact firstGoodQuoted_cap_ne b cap hn
      · rw [hs] at hn
        rw [Option.some.injEq] at hn
        rw [← hn]
        exact searchNameA_cap_ne b cap2 hs
    intro hmk
    apply hne
    have := congrArg String.data hmk
    exact this

theorem blocksRecords_name_ne (blocks : List Cs) :
    ∀ r ∈ blocksRecords blocks, r.name ≠ "" := by
  rw [blocksRecords]
  have hgen : ∀ (bs : List Cs) (acc : List RealCompany),
      (∀ r ∈ acc, r.name ≠ "") →
      ∀ r ∈ bs.foldl (fun acc b => acc ++ blockRecord b) acc, r.name ≠ "" := by
    intro bs
    induction bs with
    | nil => intro acc hacc; exact hacc
    | cons b rest ih =>
      intro acc hacc
      rw [List.foldl_cons]
      refine ih _ ?_
      intro r hr
      rcases List.mem_append.mp hr with h1 | h1
      · exact hacc r h1
      · exact blockRecord_name_ne b r h1
  exact hgen (blocks.drop 1) [] (by intro r hr; exact absurd hr (List.not_mem_nil r))

/-- A company record written with the over-escaped quoting that survives
the cleaning chain, so that the strict parse fails and manual extraction
finds a name-only fragment. -/
def overEscaped : String := "\\\\\\\""

/-- Raw response content whose manual extraction produces a record with a
name but no contact fields. -/
def c2content : String :=
  String.mk (List.replicate 40 'A') ++ "\x7b" ++ overEscaped ++ "name" ++
    overEscaped ++ ": " ++ overEscaped ++ "Acme Corp" ++ overEscaped ++ "\x7d"

/-- The partial record returned for c2content. -/
def acmePartial : RealCompany := ⟨"Acme Corp", "", "", "", "", "", "", ""⟩

/-- C2 counterexample: the manual-extraction stage produces a record whose
contact fields are empty, and the entry point returns it to the caller
unfiltered, so a record violating the validity invariant reaches a
caller. -/
theorem manual_record_violates_invariant :
    generate_real_companies "US AI" 1 (okResp c2content) = .ok [acmePartial] ∧
    ¬ validRecord acmePartial := by
  constructor
  · rfl
  · decide

/-- C2 amended: records produced by the strict-parse stage, the
alternative-parsing stage and the fallback catalog satisfy the validity
invariant, but the manual-extraction stage only guarantees a non-empty
(possibly untrimmed) name: its records may carry empty contact fields and
are returned to the caller without any validity filtering. -/
theorem validity_by_stage :
    (∀ (v : JValue) (cs : List RealCompany), extract_companies v = .ok cs →
      ∀ r ∈ cs, validRecord r) ∧
    (∀ (cl : Cs) (r : RealCompany), r ∈ try_alternative_parsing cl → validRecord r) ∧
    (∀ (icp : String) (num : Nat) (r : RealCompany),
      r ∈ get_fallback_companies icp num → validRecord r) ∧
    (∀ (cl : Cs) (r : RealCompany), r ∈ blocksRecords (manualBlocks cl) → r.name ≠ "") :=
  ⟨extract_companies_valid,
   fun cl r h => try_alternative_parsing_valid cl r h,
   fun icp num r h => fallback_catalog_valid icp num r h,
   fun cl r h => blocksRecords_name_ne (manualBlocks cl) r h⟩

/-- A decoded value with one fully valid entry, for the witness. -/
def witVal : JValue :=
  .jobj [("companies", .jarr [.jobj [("name", .jstr "Nova Robotics"),
    ("contact_name", .jstr "Kim Soto"), ("contact_email", .jstr "kim@nova.io")]])]

/-- The record recovered from witVal. -/
def witRec : RealCompany :=
  ⟨"Nova Robotics", "", "", "", "Kim Soto", "", "kim@nova.io", ""⟩

theorem validity_by_stage_witness :
    validRecord witRec ∧ validRecord (techUS.get ⟨0, by decide⟩) ∧
    (acmePartial.name ≠ "") := by
  refine ⟨?_, ?_, ?_⟩
  · exact validity_by_stage.1 witVal [witRec] rfl witRec (by decide)
  · exact validity_by_stage.2.2.1 "tech" 5 (techUS.get ⟨0, by decide⟩) (by decide)
  · exact validity_by_stage.2.2.2 (cleanContent c2content.data) acmePartial (by decide)

end EmailSender

namespace EmailSender

theorem isStartOf_ex (p : Cs) : ∀ l, isStartOf p l = true → ∃ t, l = p ++ t := by
  induction p with
  | nil => intro l _; exact ⟨l, rfl⟩
  | cons c ps ih =>
    intro l h
    cases l with
    | nil => simp [isStartOf] at h
    | cons a rest =>
      rw [isStartOf] at h
      simp only [Bool.and_eq_true, decide_eq_true_eq] at h
      obtain ⟨t, ht⟩ := ih rest h.2
      exact ⟨t, by rw [h.1, ht]; rfl⟩

theorem isStartOf_append_self (p t : Cs) : isStartOf p (p ++ t) = true := by
  induction p with
  | nil => rfl
  | cons c ps ih =>
    rw [List.cons_append, isStartOf]
    simp [ih]

theorem hasSub_ex (p l : Cs) (h : hasSub p l = true) : ∃ a b, l = a ++ p ++ b := by
  induction l with
  | nil =>
    rw [hasSub] at h
    obtain ⟨t, ht⟩ := isStartOf_ex p [] h
    exact ⟨[], t, ht⟩
  | cons c rest ih =>
    rw [hasSub, Bool.or_eq_true] at h
    rcases h with h | h
    · obtain ⟨t, ht⟩ := isStartOf_ex p (c :: rest) h
      exact ⟨[], t, ht⟩
    · obtain ⟨a, b, hab⟩ := ih h
      exact ⟨c :: a, b, by rw [hab]; rfl⟩

theorem hasSub_intro (p : Cs) : ∀ a b, hasSub p (a ++ p ++ b) = true := by
  intro a
  induction a with
  | nil =>
    intro b
    cases hp : p ++ b with
    | nil =>
      rw [List.nil_append, hp, hasSub]
      have : p = [] := by
        cases p with
        | nil => rfl
        | cons c q => simp at hp
      rw [this]
      rfl
    | cons c rest =>
      rw [List.nil_append, hp, hasSub, ← hp, Bool.or_eq_true]
      exact Or.inl (isStartOf_append_self p b)
  | cons c a' ih =>
    intro b
    rw [List.cons_append, List.cons_append, hasSub, Bool.or_eq_true]
    exact Or.inr (ih b)

theorem hasSub_false_no_decomp (p l : Cs) (h : hasSub p l = false) :
    ∀ a b, l ≠ a ++ p ++ b := by
  intro a b hl
  rw [hl, hasSub_intro p a b] at h
  exact Bool.noConfusion h

end EmailSender

namespace EmailSender

theorem hasSub_of_head_part (p q l : Cs) (h : hasSub (p ++ q) l = true) :
    hasSub p l = true := by
  obtain ⟨a, b, hab⟩ := hasSub_ex (p ++ q) l h
  have h2 : l = a ++ p ++ (q ++ b) := by
    rw [hab]
    simp [List.append_assoc]
  rw [h2]
  exact hasSub_intro p a (q ++ b)

theorem firstSplit_none_of_not_hasSub (p l : Cs) (h : hasSub p l = false) :
    firstSplit p l = none := by
  induction l with
  | nil =>
    rw [hasSub] at h
    rw [firstSplit, h]
    rfl
  | cons c rest ih =>
    rw [hasSub, Bool.or_eq_false_iff] at h
    rw [firstSplit, h.1]
    simp only [Bool.false_eq_true, if_false]
    rw [ih h.2]
    rfl

theorem take_pref_of_append_eq (x y p t : Cs) (h : x ++ y = p ++ t)
    (hlen : p.length ≤ x.length) : x = p ++ x.drop p.length := by
  have h1 : (x ++ y).take p.length = p := by
    rw [h]
    exact List.take_left p t
  rw [List.take_append_of_le_length hlen] at h1
  conv_lhs => rw [← List.take_append_drop p.length x]
  rw [h1]

theorem hasSub_of_inner (a p b J t : Cs) (h : a ++ p ++ b = J ++ t)
    (hlen : a.length + p.length ≤ J.length) : hasSub p J = true := by
  have h2 : (a ++ p) ++ b = J ++ t := by
    rw [← h]
  have h3 : J = (a ++ p) ++ J.drop (a ++ p).length := by
    refine take_pref_of_append_eq J t (a ++ p) b ?_ ?_
    · rw [← h2]
    · rw [List.length_append]
      exact hlen
  rw [h3, List.append_assoc, ← List.append_assoc a p _]
  exact hasSub_intro p a _

theorem firstSplit_at (p a b : Cs) (hp : p ≠ [])
    (ha : hasSub p a = false)
    (hstr : ∀ a2, (∃ a1, a = a1 ++ a2) → 0 < a2.length → a2.length < p.length →
      a2 ≠ p.take a2.length) :
    firstSplit p (a ++ p ++ b) = some (a, b) := by
  induction a with
  | nil =>
    rcases hpc : p with _ | ⟨c, p'⟩
    · exact absurd hpc hp
    · rw [← hpc]
      have hcons : ([] : Cs) ++ p ++ b = c :: (p' ++ b) := by
        rw [List.nil_append, hpc, List.cons_append]
      rw [hcons, firstSplit]
      have h1 : isStartOf p (c :: (p' ++ b)) = true := by
        rw [hpc, ← List.cons_append]
        exact isStartOf_append_self _ _
      rw [h1, if_pos rfl]
      have h2 : (c :: (p' ++ b)).drop p.length = b := by
        rw [hpc, ← List.cons_append]
        exact List.drop_left _ _
      rw [h2]
  | cons c a' ih =>
    have hni : isStartOf p (c :: (a' ++ p ++ b)) = false := by
      by_contra hcon
      rw [Bool.not_eq_false] at hcon
      obtain ⟨t, ht⟩ := isStartOf_ex p _ hcon
      have hteq : (c :: a') ++ (p ++ b) = p ++ t := by
        rw [← ht]
        simp [List.append_assoc]
      by_cases hl : p.length ≤ (c :: a').length
      · have heq := take_pref_of_append_eq (c :: a') (p ++ b) p t hteq hl
        have hsub : hasSub p (c :: a') = true := by
          rw [heq]
          have h0 := hasSub_intro p [] ((c :: a').drop p.length)
          rw [List.nil_append] at h0
          exact h0
        rw [hsub] at ha
        exact Bool.noConfusion ha
      · push_neg at hl
        have hca : (c :: a') = p.take (c :: a').length := by
          have h1 : ((c :: a') ++ (p ++ b)).take (c :: a').length = c :: a' :=
            List.take_left _ _
          have h2 : (p ++ t).take (c :: a').length = p.take (c :: a').length :=
            List.take_append_of_le_length (by omega)
          rw [hteq, h2] at h1
          exact h1.symm
        exact hstr (c :: a') ⟨[], rfl⟩ (by simp) hl hca
    have ha' : hasSub p a' = false := by
      rw [hasSub, Bool.or_eq_false_iff] at ha
      exact ha.2
    have hstr' : ∀ a2, (∃ a1, a' = a1 ++ a2) → 0 < a2.length → a2.length < p.length →
        a2 ≠ p.take a2.length := by
      intro a2 hex h1 h2
      obtain ⟨a1, he⟩ := hex
      exact hstr a2 ⟨c :: a1, by rw [he]; rfl⟩ h1 h2
    have hgoal : (c :: a') ++ p ++ b = c :: (a' ++ p ++ b) := by
      simp
    rw [hgoal, firstSplit, hni]
    simp only [Bool.false_eq_true, if_false]
    rw [ih ha' hstr']
    rfl

end EmailSender

namespace EmailSender

end EmailSender

namespace EmailSender

/-- The backtick character. -/
def btick : Char := Char.ofNat 96

theorem tbJson_decomp : tbJson = tb3 ++ "json".data := by decide

theorem tb3_cons : tb3 = btick :: [btick, btick] := by decide

theorem tbJson_cons : tbJson = btick :: "``json".data := by decide

theorem hasSub_tbJson_false (J : Cs) (h : hasSub tb3 J = false) :
    hasSub tbJson J = false := by
  by_contra hcon
  rw [Bool.not_eq_false, tbJson_decomp] at hcon
  rw [hasSub_of_head_part tb3 "json".data J hcon] at h
  exact Bool.noConfusion h

theorem getLast?_append_last (x : Cs) (c : Char) : (x ++ [c]).getLast? = some c := by
  rw [List.getLast?_append]
  rfl

theorem hasSub_tb3_pad_false (J : Cs) (h : hasSub tb3 J = false) :
    hasSub tb3 ('\n' :: (J ++ ['\n'])) = false := by
  by_contra hcon
  rw [Bool.not_eq_false] at hcon
  obtain ⟨a, b, hab⟩ := hasSub_ex tb3 _ hcon
  cases a with
  | nil =>
    rw [List.nil_append, tb3_cons, List.cons_append] at hab
    injection hab with h1 _
    exact absurd h1 (by decide)
  | cons c0 a' =>
    rw [List.cons_append, List.cons_append] at hab
    rw [List.cons.injEq] at hab
    have htail : J ++ ['\n'] = a' ++ tb3 ++ b := hab.2
    have h3 : tb3.length = 3 := by decide
    have hl := congrArg List.length htail
    simp only [List.length_append, List.length_cons, List.length_nil] at hl
    by_cases hb : b = []
    · rw [hb, List.append_nil] at htail
      have h1 : (J ++ ['\n']).getLast? = some '\n' := getLast?_append_last J '\n'
      have h2 : (a' ++ tb3).getLast? = some btick := by
        rw [tb3_cons, List.getLast?_append]
        rfl
      rw [htail, h2] at h1
      have h5 : btick = '\n' := by injection h1
      exact absurd h5 (by decide)
    · have hblen : 1 ≤ b.length := by
        cases b with
        | nil => exact absurd rfl hb
        | cons x xs => simp
      have hin : hasSub tb3 J = true := by
        refine hasSub_of_inner a' tb3 b J ['\n'] htail.symm ?_
        omega
      rw [hin] at h
      exact Bool.noConfusion h

theorem hasSub_tbJson_restW_false (J : Cs) (h : hasSub tb3 J = false) :
    hasSub tbJson ('\n' :: (J ++ '\n' :: tb3)) = false := by
  by_contra hcon
  rw [Bool.not_eq_false] at hcon
  obtain ⟨a, b, hab⟩ := hasSub_ex tbJson _ hcon
  cases a with
  | nil =>
    rw [List.nil_append, tbJson_cons, List.cons_append] at hab
    injection hab with h1 _
    exact absurd h1 (by decide)
  | cons c0 a' =>
    rw [List.cons_append, List.cons_append] at hab
    rw [List.cons.injEq] at hab
    have htail : J ++ '\n' :: tb3 = a' ++ tbJson ++ b := hab.2
    have h7 : tbJson.length = 7 := by decide
    have h3 : tb3.length = 3 := by decide
    have hl := congrArg List.length htail
    simp only [List.length_append, List.length_cons, List.length_nil] at hl
    have hdec : a' ++ tbJson ++ b = a' ++ tb3 ++ ("json".data ++ b) := by
      rw [tbJson_decomp]
      simp [List.append_assoc]
    have h4 : ("json".data).length = 4 := by decide
    have hin : hasSub tb3 J = true := by
      refine hasSub_of_inner a' tb3 ("json".data ++ b) J ('\n' :: tb3) ?_ ?_
      · rw [← hdec, ← htail]
      · omega
    rw [hin] at h
    exact Bool.noConfusion h

theorem suffix_getLast_of_append (a1 a2 x : Cs) (hne : a2 ≠ [])
    (heq : x = a1 ++ a2) : a2.getLast? = x.getLast? := by
  rw [heq, List.getLast?_append]
  cases h2 : a2.getLast? with
  | none =>
    rw [List.getLast?_eq_none_iff] at h2
    exact absurd h2 hne
  | some c => rfl

/-- The straddle condition of firstSplit_at holds for any text ending in
a newline when no proper prefix of the pattern ends in a newline. -/
theorem straddle_cond_nl (p x : Cs) (hnl : x.getLast? = some '\n')
    (hpt : ∀ n, 0 < n → n < p.length → (p.take n).getLast? ≠ some '\n') :
    ∀ a2, (∃ a1, x = a1 ++ a2) → 0 < a2.length → a2.length < p.length →
      a2 ≠ p.take a2.length := by
  intro a2 hex hpos hlt hcontra
  obtain ⟨a1, heq⟩ := hex
  have h1 : a2.getLast? = some '\n' := by
    rw [suffix_getLast_of_append a1 a2 x ?_ heq, hnl]
    intro hnil
    rw [hnil] at hpos
    simp at hpos
  rw [hcontra] at h1
  exact hpt a2.length hpos hlt h1

theorem tb3_take_not_nl : ∀ n, 0 < n → n < tb3.length →
    (tb3.take n).getLast? ≠ some '\n' := by
  intro n h1 h2
  have h3 : tb3.length = 3 := by decide
  rw [h3] at h2
  interval_cases n
  · decide
  · decide

theorem tbJson_take_not_nl : ∀ n, 0 < n → n < tbJson.length →
    (tbJson.take n).getLast? ≠ some '\n' := by
  intro n h1 h2
  have h3 : tbJson.length = 7 := by decide
  rw [h3] at h2
  interval_cases n
  all_goals decide

end EmailSender

namespace EmailSender

/-- The fenced wrapping of a JSON answer. -/
def wrapJson (j : String) : String := "```json\n" ++ j ++ "\n```"

theorem wrapJson_data (j : String) :
    (wrapJson j).data = tbJson ++ ('\n' :: (j.data ++ '\n' :: tb3)) := by
  show ("```json\n" ++ j ++ "\n```").data = _
  rw [String.data_append, String.data_append]
  show ("```json\n".data ++ j.data) ++ "\n```".data = _
  have h1 : "```json\n".data = tbJson ++ ['\n'] := by decide
  have h2 : "\n```".data = '\n' :: tb3 := by decide
  rw [h1, h2]
  simp [List.append_assoc]

theorem pySplitF_none (p l : Cs) (fuel : Nat) (h : hasSub p l = false) :
    pySplitF p (fuel + 1) l = [l] := by
  rw [pySplitF, firstSplit_none_of_not_hasSub p l h]

theorem pySplitF_nil (p : Cs) (fuel : Nat) (hp0 : p ≠ []) : pySplitF p fuel [] = [[]] := by
  cases fuel with
  | zero => rfl
  | succ g =>
    rw [pySplitF]
    cases hp : firstSplit p [] with
    | none => rfl
    | some pq =>
      rw [firstSplit.eq_def] at hp
      dsimp only at hp
      by_cases hs : isStartOf p [] = true
      · have hpe : p = [] := by
          cases p with
          | nil => rfl
          | cons c q => rw [isStartOf] at hs; exact Bool.noConfusion hs
        exact absurd hpe hp0
      · rw [if_neg hs] at hp
        exact Option.noConfusion hp

theorem unwrap_wrapped (J : Cs) (h : hasSub tb3 J = false) :
    unwrapMarkdown (tbJson ++ ('\n' :: (J ++ '\n' :: tb3))) = '\n' :: (J ++ ['\n']) := by
  have hW : hasSub tbJson (tbJson ++ ('\n' :: (J ++ '\n' :: tb3))) = true := by
    have h0 := hasSub_intro tbJson [] ('\n' :: (J ++ '\n' :: tb3))
    rw [List.nil_append] at h0
    exact h0
  rw [unwrapMarkdown, if_pos hW]
  have hfs1 : firstSplit tbJson (tbJson ++ ('\n' :: (J ++ '\n' :: tb3))) =
      some ([], '\n' :: (J ++ '\n' :: tb3)) := by
    have h0 := firstSplit_at tbJson [] ('\n' :: (J ++ '\n' :: tb3)) (by decide)
      (by decide) ?_
    · rw [List.nil_append] at h0
      exact h0
    · intro a2 hex hpos _
      obtain ⟨a1, he⟩ := hex
      have : a2 = [] := by
        cases a1 with
        | nil => rw [List.nil_append] at he; exact he.symm
        | cons x xs => simp at he
      rw [this] at hpos
      simp at hpos
  have hsplit1 : pySplit tbJson (tbJson ++ ('\n' :: (J ++ '\n' :: tb3))) =
      [[], '\n' :: (J ++ '\n' :: tb3)] := by
    rw [pySplit, pySplitF, hfs1]
    dsimp only
    rw [show (tbJson ++ ('\n' :: (J ++ '\n' :: tb3))).length =
        ('\n' :: (J ++ '\n' :: tb3)).length + 6 + 1 by
      rw [List.length_append]
      have h7 : tbJson.length = 7 := by decide
      omega]
    rw [pySplitF_none tbJson _ _ (hasSub_tbJson_restW_false J h)]
  rw [hsplit1]
  show idx0 (pySplit tb3 ('\n' :: (J ++ '\n' :: tb3))) = _
  have hdecomp : '\n' :: (J ++ '\n' :: tb3) = ('\n' :: (J ++ ['\n'])) ++ tb3 ++ [] := by
    simp [List.append_assoc]
  have hfs2 : firstSplit tb3 ('\n' :: (J ++ '\n' :: tb3)) =
      some ('\n' :: (J ++ ['\n']), []) := by
    rw [hdecomp]
    refine firstSplit_at tb3 ('\n' :: (J ++ ['\n'])) [] (by decide)
      (hasSub_tb3_pad_false J h) ?_
    refine straddle_cond_nl tb3 ('\n' :: (J ++ ['\n'])) ?_ tb3_take_not_nl
    show (('\n' :: J) ++ ['\n']).getLast? = some '\n'
    exact getLast?_append_last _ '\n'
  rw [pySplit, pySplitF, hfs2]
  dsimp only
  rw [pySplitF_nil tb3 _ (by decide)]
  rfl

theorem unwrap_direct (J : Cs) (h : hasSub tb3 J = false) : unwrapMarkdown J = J := by
  rw [unwrapMarkdown, if_neg ?_, if_neg ?_]
  · rw [h]
    exact Bool.noConfusion
  · rw [hasSub_tbJson_false J h]
    exact Bool.noConfusion

end EmailSender

namespace EmailSender

theorem pyFindO_cons_ne (c a : Char) (l : Cs) (h : a ≠ c) :
    pyFindO c (a :: l) = (pyFindO c l).map (· + 1) := by
  rw [pyFindO, if_neg h]

theorem pyFindO_append_ne (c : Char) (l : Cs) (x : Char) (hx : x ≠ c) :
    pyFindO c (l ++ [x]) = pyFindO c l := by
  induction l with
  | nil =>
    rw [List.nil_append]
    rw [show pyFindO c [] = none from rfl]
    rw [pyFindO, if_neg hx]
    rfl
  | cons a l' ih =>
    rw [List.cons_append, pyFindO, pyFindO]
    by_cases ha : a = c
    · rw [if_pos ha, if_pos ha]
    · rw [if_neg ha, if_neg ha, ih]

theorem pyRFindO_cons_ne (c a : Char) (l : Cs) (h : a ≠ c) :
    pyRFindO c (a :: l) = (pyRFindO c l).map (· + 1) := by
  rw [pyRFindO]
  cases pyRFindO c l with
  | none => rw [if_neg h]; rfl
  | some i => rfl

theorem pyRFindO_append_ne (c : Char) (l : Cs) (x : Char) (hx : x ≠ c) :
    pyRFindO c (l ++ [x]) = pyRFindO c l := by
  induction l with
  | nil =>
    rw [List.nil_append, pyRFindO, pyRFindO]
    rw [show pyRFindO c [] = none from rfl]
    rw [if_neg hx]
  | cons a l' ih =>
    rw [List.cons_append, pyRFindO, pyRFindO, ih]

theorem pyFindO_lt (c : Char) (l : Cs) (i : Nat) (h : pyFindO c l = some i) :
    i < l.length := by
  induction l generalizing i with
  | nil => simp [pyFindO] at h
  | cons a l' ih =>
    rw [pyFindO] at h
    by_cases ha : a = c
    · rw [if_pos ha, Option.some.injEq] at h
      rw [← h]
      simp
    · rw [if_neg ha] at h
      cases hf : pyFindO c l' with
      | none => rw [hf] at h; exact Option.noConfusion h
      | some j =>
        rw [hf] at h
        simp only [Option.map_some', Option.some.injEq] at h
        have := ih j hf
        rw [← h]
        simp only [List.length_cons]
        omega

theorem pyRFindO_lt (c : Char) (l : Cs) (i : Nat) (h : pyRFindO c l = some i) :
    i < l.length := by
  induction l generalizing i with
  | nil => simp [pyRFindO] at h
  | cons a l' ih =>
    rw [pyRFindO] at h
    cases hf : pyRFindO c l' with
    | none =>
      rw [hf] at h
      by_cases ha : a = c
      · rw [if_pos ha, Option.some.injEq] at h
        rw [← h]
        simp
      · rw [if_neg ha] at h
        exact Option.noConfusion h
    | some j =>
      rw [hf] at h
      rw [Option.some.injEq] at h
      have := ih j hf
      rw [← h]
      simp only [List.length_cons]
      omega

theorem boundaryTrim_pad (J : Cs) :
    boundaryTrim ('\n' :: (J ++ ['\n'])) = boundaryTrim J ∨
    (boundaryTrim ('\n' :: (J ++ ['\n'])) = '\n' :: (J ++ ['\n']) ∧ boundaryTrim J = J) := by
  have hob : ('\n' : Char) ≠ obr := by decide
  have hcb : ('\n' : Char) ≠ cbr := by decide
  have hfind : pyFindO obr ('\n' :: (J ++ ['\n'])) = (pyFindO obr J).map (· + 1) := by
    rw [pyFindO_cons_ne obr '\n' _ hob, pyFindO_append_ne obr J '\n' hob]
  have hrfind : pyRFindO cbr ('\n' :: (J ++ ['\n'])) = (pyRFindO cbr J).map (· + 1) := by
    rw [pyRFindO_cons_ne cbr '\n' _ hcb, pyRFindO_append_ne cbr J '\n' hcb]
  cases hf : pyFindO obr J with
  | none =>
    right
    constructor
    · rw [boundaryTrim, hfind, hf]
      rfl
    · rw [boundaryTrim, hf]
  | some s =>
    cases hr : pyRFindO cbr J with
    | none =>
      right
      constructor
      · rw [boundaryTrim, hfind, hf, hrfind, hr]
        dsimp only [Option.map_some', Option.map_none']
        rw [if_neg (by omega)]
      · rw [boundaryTrim, hf, hr]
        dsimp only
        rw [if_neg (by omega)]
    | some r =>
      by_cases hc : s < r + 1
      · left
        have hs := pyFindO_lt obr J s hf
        have hrl := pyRFindO_lt cbr J r hr
        rw [boundaryTrim, hfind, hf, hrfind, hr, boundaryTrim, hf, hr]
        dsimp only [Option.map_some']
        rw [if_pos (by omega), if_pos hc]
        have hd1 : ('\n' :: (J ++ ['\n'])).drop (s + 1) = J.drop s ++ ['\n'] := by
          rw [List.drop_succ_cons]
          exact List.drop_append_of_le_length (by omega)
        rw [hd1]
        have ht1 : (J.drop s ++ ['\n']).take (r + 1 + 1 - (s + 1)) =
            (J.drop s).take (r + 1 - s) := by
          have harith : r + 1 + 1 - (s + 1) = r + 1 - s := by omega
          rw [harith]
          refine List.take_append_of_le_length ?_
          rw [List.length_drop]
          omega
        rw [ht1]
      · right
        constructor
        · rw [boundaryTrim, hfind, hf, hrfind, hr]
          dsimp only [Option.map_some']
          rw [if_neg (by omega)]
        · rw [boundaryTrim, hf, hr]
          dsimp only
          rw [if_neg (by omega)]

end EmailSender

namespace EmailSender

theorem commaMatch_append_nl (x : Cs) : commaMatch (x ++ ['\n']) = commaMatch x := by
  rw [commaMatch, commaMatch]
  unfold wsRest
  rw [List.dropWhile_append]
  by_cases he : (x.dropWhile isReWs).isEmpty
  · rw [if_pos he]
    rw [List.isEmpty_iff] at he
    rw [he]
    rfl
  · rw [if_neg he]
    rw [List.isEmpty_iff] at he
    cases hd : x.dropWhile isReWs with
    | nil => exact absurd hd he
    | cons b t => rw [List.cons_append]

theorem rtc_cons_nl (x : Cs) : rtc ('\n' :: x) = '\n' :: rtc x := by
  rw [rtc, if_neg]
  intro h
  exact absurd h.1 (by decide)

theorem rtc_append_nl (x : Cs) : rtc (x ++ ['\n']) = rtc x ++ ['\n'] := by
  induction x with
  | nil =>
    show rtc ['\n'] = ['\n']
    rw [rtc, if_neg]
    · rfl
    · intro h
      exact absurd h.1 (by decide)
  | cons c x' ih =>
    rw [List.cons_append, rtc, rtc, commaMatch_append_nl]
    by_cases h : c = ',' ∧ commaMatch x' = true
    · rw [if_pos h, if_pos h, ih]
    · rw [if_neg h, if_neg h, ih]
      rfl

theorem replBQ_cons_ne (c : Char) (x : Cs) (h : c ≠ bsl) :
    replBQ (c :: x) = c :: replBQ x := by
  cases x with
  | nil => rfl
  | cons a t =>
    rw [replBQ, if_neg]
    intro hc
    exact absurd hc.1 h

theorem replBQ_append_nl (x : Cs) : replBQ (x ++ ['\n']) = replBQ x ++ ['\n'] := by
  induction x using replBQ.induct with
  | case1 => rfl
  | case2 c =>
    show (if c = bsl ∧ ('\n' : Char) = dqu then dqu :: replBQ [] else c :: replBQ ['\n']) =
      [c] ++ ['\n']
    rw [if_neg]
    · rfl
    · intro hc
      exact absurd hc.2 (by decide)
  | case3 c1 c2 rest hc ih =>
    rw [List.cons_append, List.cons_append, replBQ, if_pos hc, replBQ, if_pos hc]
    rw [ih, List.cons_append]
  | case4 c1 c2 rest hc ih =>
    rw [List.cons_append, List.cons_append, replBQ, if_neg hc, replBQ, if_neg hc]
    rw [List.cons_append] at ih
    rw [ih, List.cons_append]

theorem takeWhile_len_eq_self (p : Char → Bool) (l : Cs)
    (h : (l.takeWhile p).length = l.length) : l.takeWhile p = l := by
  induction l with
  | nil => rfl
  | cons c t ih =>
    rw [List.takeWhile_cons] at h ⊢
    by_cases hp : p c = true
    · rw [if_pos hp] at h ⊢
      rw [List.length_cons, List.length_cons] at h
      rw [ih (by omega)]
    · rw [if_neg hp] at h
      rw [List.length_nil, List.length_cons] at h
      omega

theorem quoteInLine_append_nl (x : Cs) : quoteInLine (x ++ ['\n']) = quoteInLine x := by
  rw [quoteInLine, quoteInLine, List.takeWhile_append]
  by_cases hlen : (x.takeWhile (fun c => c ≠ '\n')).length = x.length
  · rw [if_pos hlen]
    have hx := takeWhile_len_eq_self _ x hlen
    rw [hx]
    rw [show (['\n'].takeWhile fun c => (c ≠ '\n' : Bool)) = [] from rfl]
    rw [List.append_nil]
  · rw [if_neg hlen]

theorem escQA_prev_congr (p1 p2 : Option Char) (x : Cs)
    (hp : p1 = some bsl ↔ p2 = some bsl) : escQA p1 x = escQA p2 x := by
  cases x with
  | nil => rfl
  | cons c rest =>
    rw [escQA, escQA]
    by_cases h : c = dqu ∧ p1 ≠ some bsl ∧ quoteInLine rest = true
    · rw [if_pos h, if_pos ⟨h.1, fun hb => h.2.1 (hp.mpr hb), h.2.2⟩]
    · rw [if_neg h, if_neg ?_]
      intro h2
      exact h ⟨h2.1, fun hb => h2.2.1 (hp.mp hb), h2.2.2⟩

theorem escQA_append_nl (x : Cs) : ∀ p, escQA p (x ++ ['\n']) = escQA p x ++ ['\n'] := by
  induction x with
  | nil =>
    intro p
    show escQA p ['\n'] = ['\n']
    rw [escQA, if_neg]
    · rfl
    · intro hc
      exact absurd hc.1 (by decide)
  | cons c x' ih =>
    intro p
    rw [List.cons_append, escQA, escQA, quoteInLine_append_nl]
    by_cases h : c = dqu ∧ p ≠ some bsl ∧ quoteInLine x' = true
    · rw [if_pos h, if_pos h, ih]
      rfl
    · rw [if_neg h, if_neg h, ih]
      rfl

theorem stripJsonWs_pad (x : Cs) :
    stripJsonWs ('\n' :: (x ++ ['\n'])) = stripJsonWs x := by
  rw [stripJsonWs, stripJsonWs]
  have h1 : ('\n' :: (x ++ ['\n'])).dropWhile isJsonWs = (x ++ ['\n']).dropWhile isJsonWs := by
    rw [List.dropWhile_cons]
    rw [if_pos (by decide)]
  rw [h1, List.dropWhile_append]
  by_cases he : (x.dropWhile isJsonWs).isEmpty
  · rw [if_pos he]
    rw [List.isEmpty_iff] at he
    rw [he]
    rfl
  · rw [if_neg he]
    rw [List.reverse_append]
    have h2 : (['\n'].reverse ++ (x.dropWhile isJsonWs).reverse).dropWhile isJsonWs =
        ((x.dropWhile isJsonWs).reverse).dropWhile isJsonWs := by
      show (('\n' :: (x.dropWhile isJsonWs).reverse)).dropWhile isJsonWs = _
      rw [List.dropWhile_cons, if_pos (by decide)]
    rw [h2]

theorem json_loads_pad (y : Cs) :
    json_loads ('\n' :: (y ++ ['\n'])) = json_loads y := by
  rw [json_loads, json_loads, stripJsonWs_pad]

end EmailSender

namespace EmailSender

theorem maxKDown_congr (ok1 ok2 : Nat → Bool) (h : ∀ k, ok1 k = ok2 k) :
    ∀ b, maxKDown ok1 b = maxKDown ok2 b := by
  intro b
  induction b with
  | zero => rw [maxKDown, maxKDown, h]
  | succ k ih => rw [maxKDown, maxKDown, h, ih]

theorem maxKDown_ok (ok : Nat → Bool) :
    ∀ b k, maxKDown ok b = some k → ok k = true := by
  intro b
  induction b with
  | zero =>
    intro k h
    rw [maxKDown] at h
    by_cases h0 : ok 0 = true
    · rw [if_pos h0, Option.some.injEq] at h
      rw [← h]
      exact h0
    · rw [if_neg h0] at h
      exact Option.noConfusion h
  | succ b ih =>
    intro k h
    rw [maxKDown] at h
    by_cases hb : ok (b + 1) = true
    · rw [if_pos hb, Option.some.injEq] at h
      rw [← h]
      exact hb
    · rw [if_neg hb] at h
      exact ih k h

theorem maxKDown_top_false (ok : Nat → Bool) (b : Nat) (h : ok (b + 1) = false) :
    maxKDown ok (b + 1) = maxKDown ok b := by
  rw [maxKDown, if_neg]
  intro hh
  rw [h] at hh
  exact Bool.noConfusion hh

theorem tagMatchLen_append_nl (w6 : Cs → Nat → Bool)
    (hpt : ∀ t k, w6 (t ++ ['\n']) k = w6 t k)
    (hlen : ∀ t k, w6 t k = true → k + 6 ≤ t.length) (rest : Cs) :
    tagMatchLen (w6 (rest ++ ['\n'])) (rest ++ ['\n']) = tagMatchLen (w6 rest) rest := by
  rw [tagMatchLen, tagMatchLen]
  rw [maxKDown_congr (w6 (rest ++ ['\n'])) (w6 rest) (hpt rest)]
  rw [List.takeWhile_append]
  by_cases hq : (rest.takeWhile fun c => c ≠ cbr).length = rest.length
  · rw [if_pos hq]
    rw [show (['\n'].takeWhile fun c => (c ≠ cbr : Bool)) = ['\n'] from by decide]
    rw [List.length_append, List.length_singleton]
    have htop : w6 rest (rest.length + 1) = false := by
      cases hw : w6 rest (rest.length + 1) with
      | false => rfl
      | true =>
        have := hlen rest (rest.length + 1) hw
        omega
    rw [maxKDown_top_false (w6 rest) rest.length htop, hq]
  · rw [if_neg hq]

theorem findTM_cons_nl (w6 : Cs → Nat → Bool) (x : Cs) :
    findTM w6 ('\n' :: x) = (findTM w6 x).map fun sl => (sl.1 + 1, sl.2) := by
  rw [findTM, if_neg (by decide : ¬('\n' = obr))]

theorem findTM_append_nl (w6 : Cs → Nat → Bool)
    (hpt : ∀ t k, w6 (t ++ ['\n']) k = w6 t k)
    (hlen : ∀ t k, w6 t k = true → k + 6 ≤ t.length) :
    ∀ x, findTM w6 (x ++ ['\n']) = findTM w6 x := by
  intro x
  induction x with
  | nil =>
    rw [List.nil_append, findTM, findTM, if_neg (by decide : ¬('\n' = obr))]
    rfl
  | cons c rest ih =>
    rw [List.cons_append, findTM, findTM]
    by_cases hc : c = obr
    · rw [if_pos hc, if_pos hc, tagMatchLen_append_nl w6 hpt hlen rest]
      cases tagMatchLen (w6 rest) rest with
      | some klen => rfl
      | none =>
        dsimp only
        rw [ih]
    · rw [if_neg hc, if_neg hc, ih]

theorem findTM_bound (w6 : Cs → Nat → Bool)
    (hlen : ∀ t k, w6 t k = true → k + 6 ≤ t.length) :
    ∀ l s ln, findTM w6 l = some (s, ln) → s + ln ≤ l.length := by
  intro l
  induction l with
  | nil =>
    intro s ln h
    exact Option.noConfusion h
  | cons c rest ih =>
    intro s ln h
    rw [findTM] at h
    by_cases hc : c = obr
    · rw [if_pos hc] at h
      rcases htm : tagMatchLen (w6 rest) rest with _ | klen
      · rw [htm] at h
        rcases hfs : findTM w6 rest with _ | ⟨s2, ln2⟩
        · rw [hfs] at h
          exact Option.noConfusion h
        · rw [hfs] at h
          simp only [Option.map_some', Option.some.injEq] at h
          have hs : s = s2 + 1 := ((Prod.mk.injEq _ _ _ _).mp h).1.symm
          have hl : ln = ln2 := ((Prod.mk.injEq _ _ _ _).mp h).2.symm
          have := ih s2 ln2 hfs
          rw [hs, hl, List.length_cons]
          omega
      · rw [htm] at h
        rw [Option.some.injEq] at h
        have hs : s = 0 := ((Prod.mk.injEq _ _ _ _).mp h).1.symm
        have hl : ln = klen + 1 := ((Prod.mk.injEq _ _ _ _).mp h).2.symm
        rw [tagMatchLen] at htm
        rcases hmk : maxKDown (w6 rest) ((rest.takeWhile fun c => c ≠ cbr).length)
          with _ | k0
        · rw [hmk] at htm
          exact Option.noConfusion htm
        · rw [hmk] at htm
          simp only [Option.map_some', Option.some.injEq] at htm
          have hw := maxKDown_ok (w6 rest) _ k0 hmk
          have := hlen rest k0 hw
          rw [hs, hl, ← htm, List.length_cons]
          omega
    · rw [if_neg hc] at h
      rcases hfs : findTM w6 rest with _ | ⟨s2, ln2⟩
      · rw [hfs] at h
        exact Option.noConfusion h
      · rw [hfs] at h
        simp only [Option.map_some', Option.some.injEq] at h
        have hs : s = s2 + 1 := ((Prod.mk.injEq _ _ _ _).mp h).1.symm
        have hl : ln = ln2 := ((Prod.mk.injEq _ _ _ _).mp h).2.symm
        have := ih s2 ln2 hfs
        rw [hs, hl, List.length_cons]
        omega

theorem reSplitTagF_stable (w6 : Cs → Nat → Bool) :
    ∀ n l f1 f2, l.length ≤ n → l.length < f1 → l.length < f2 →
      reSplitTagF w6 f1 l = reSplitTagF w6 f2 l := by
  intro n
  induction n with
  | zero =>
    intro l f1 f2 hn h1 h2
    have hl : l = [] := List.length_eq_zero.mp (Nat.le_zero.mp hn)
    subst hl
    cases f1 with
    | zero => omega
    | succ g1 =>
      cases f2 with
      | zero => omega
      | succ g2 => rfl
  | succ n ih =>
    intro l f1 f2 hn h1 h2
    cases f1 with
    | zero => omega
    | succ g1 =>
      cases f2 with
      | zero => omega
      | succ g2 =>
        rw [reSplitTagF, reSplitTagF]
        rcases hf : findTM w6 l with _ | ⟨s, ln⟩
        · rfl
        · have hpos := findTM_pos w6 l s ln hf
          dsimp only
          rw [ih (l.drop (s + ln)) g1 g2 ?_ ?_ ?_] <;>
            (rw [List.length_drop]; omega)

end EmailSender

namespace EmailSender

theorem w6pat1_append_nl (t : Cs) (k : Nat) : w6pat1 (t ++ ['\n']) k = w6pat1 t k := by
  by_cases hk : k ≤ t.length
  · rw [w6pat1, w6pat1, List.drop_append_of_le_length hk]
    rcases hd : t.drop k with _ | ⟨c1, _ | ⟨c2, _ | ⟨c3, _ | ⟨c4, _ | ⟨c5, _ | ⟨c6, r⟩⟩⟩⟩⟩⟩
    · rfl
    · rfl
    · rfl
    · rfl
    · rfl
    · show (isClassQB c1 && (c2 = 'n') && (c3 = 'a') && (c4 = 'm') && (c5 = 'e') &&
        isClassQB '\n') = false
      rw [show isClassQB '\n' = false from by decide, Bool.and_false]
    · rfl
  · have h1 : t.drop k = [] := List.drop_eq_nil_of_le (by omega)
    have h2 : (t ++ ['\n']).drop k = [] := by
      refine List.drop_eq_nil_of_le ?_
      rw [List.length_append, List.length_singleton]
      omega
    rw [w6pat1, w6pat1, h1, h2]

theorem w6pat2_append_nl (t : Cs) (k : Nat) : w6pat2 (t ++ ['\n']) k = w6pat2 t k := by
  by_cases hk : k ≤ t.length
  · rw [w6pat2, w6pat2, List.drop_append_of_le_length hk]
    rcases hd : t.drop k with _ | ⟨c1, _ | ⟨c2, _ | ⟨c3, _ | ⟨c4, _ | ⟨c5, _ | ⟨c6, r⟩⟩⟩⟩⟩⟩
    · rfl
    · rfl
    · rfl
    · rfl
    · rfl
    · show ((c1 = dqu) && (c2 = 'n') && (c3 = 'a') && (c4 = 'm') && (c5 = 'e') &&
        ('\n' = dqu : Bool)) = false
      rw [show (('\n' = dqu : Bool)) = false from by decide, Bool.and_false]
    · rfl
  · have h1 : t.drop k = [] := List.drop_eq_nil_of_le (by omega)
    have h2 : (t ++ ['\n']).drop k = [] := by
      refine List.drop_eq_nil_of_le ?_
      rw [List.length_append, List.length_singleton]
      omega
    rw [w6pat2, w6pat2, h1, h2]

theorem w6pat1_len (t : Cs) (k : Nat) (h : w6pat1 t k = true) : k + 6 ≤ t.length := by
  rw [w6pat1] at h
  rcases hd : t.drop k with _ | ⟨c1, _ | ⟨c2, _ | ⟨c3, _ | ⟨c4, _ | ⟨c5, _ | ⟨c6, r⟩⟩⟩⟩⟩⟩ <;>
    rw [hd] at h
  · exact Bool.noConfusion h
  · exact Bool.noConfusion h
  · exact Bool.noConfusion h
  · exact Bool.noConfusion h
  · exact Bool.noConfusion h
  · exact Bool.noConfusion h
  · have hlen : (t.drop k).length = t.length - k := List.length_drop k t
    rw [hd] at hlen
    simp only [List.length_cons] at hlen
    omega

theorem w6pat2_len (t : Cs) (k : Nat) (h : w6pat2 t k = true) : k + 6 ≤ t.length := by
  rw [w6pat2] at h
  rcases hd : t.drop k with _ | ⟨c1, _ | ⟨c2, _ | ⟨c3, _ | ⟨c4, _ | ⟨c5, _ | ⟨c6, r⟩⟩⟩⟩⟩⟩ <;>
    rw [hd] at h
  · exact Bool.noConfusion h
  · exact Bool.noConfusion h
  · exact Bool.noConfusion h
  · exact Bool.noConfusion h
  · exact Bool.noConfusion h
  · exact Bool.noConfusion h
  · have hlen : (t.drop k).length = t.length - k := List.length_drop k t
    rw [hd] at hlen
    simp only [List.length_cons] at hlen
    omega

end EmailSender

namespace EmailSender

/-- Append a final newline to the last segment of a split result. -/
def padLast : List Cs → List Cs
  | [] => []
  | [b] => [b ++ ['\n']]
  | b :: b2 :: bs => b :: padLast (b2 :: bs)

/-- Prepend a leading newline to the first segment of a split result. -/
def consHd : List Cs → List Cs
  | [] => []
  | b :: bs => ('\n' :: b) :: bs

theorem padLast_length : ∀ bs : List Cs, (padLast bs).length = bs.length := by
  intro bs
  induction bs using padLast.induct with
  | case1 => rfl
  | case2 b => rfl
  | case3 b b2 bs ih =>
    rw [padLast, List.length_cons, List.length_cons, ih]

theorem consHd_length : ∀ bs : List Cs, (consHd bs).length = bs.length := by
  intro bs
  cases bs with
  | nil => rfl
  | cons b bs => rfl

theorem padLast_drop_one : ∀ bs : List Cs, (padLast bs).drop 1 = padLast (bs.drop 1) := by
  intro bs
  induction bs using padLast.induct with
  | case1 => rfl
  | case2 b => rfl
  | case3 b b2 bs ih => rfl

theorem consHd_drop_one : ∀ bs : List Cs, (consHd bs).drop 1 = bs.drop 1 := by
  intro bs
  cases bs with
  | nil => rfl
  | cons b bs => rfl

theorem reSplitTagF_ne_nil (w6 : Cs → Nat → Bool) (f : Nat) (l : Cs) :
    reSplitTagF w6 f l ≠ [] := by
  cases f with
  | zero => exact fun h => List.noConfusion h
  | succ g =>
    rw [reSplitTagF]
    cases findTM w6 l with
    | none => exact fun h => List.noConfusion h
    | some sl => exact fun h => List.noConfusion h

theorem reSplitTagF_append_nl (w6 : Cs → Nat → Bool)
    (hpt : ∀ t k, w6 (t ++ ['\n']) k = w6 t k)
    (hlen : ∀ t k, w6 t k = true → k + 6 ≤ t.length) :
    ∀ n x f1 f2, x.length ≤ n → x.length + 1 < f1 → x.length < f2 →
      reSplitTagF w6 f1 (x ++ ['\n']) = padLast (reSplitTagF w6 f2 x) := by
  intro n
  induction n with
  | zero =>
    intro x f1 f2 hn h1 h2
    have hx : x = [] := List.length_eq_zero.mp (Nat.le_zero.mp hn)
    subst hx
    cases f1 with
    | zero => omega
    | succ g1 =>
      cases f2 with
      | zero => omega
      | succ g2 =>
        rw [List.nil_append, reSplitTagF, reSplitTagF]
        rw [show findTM w6 ['\n'] = none from by
          rw [findTM, if_neg (by decide : ¬('\n' = obr))]; rfl]
        rfl
  | succ n ih =>
    intro x f1 f2 hn h1 h2
    cases f1 with
    | zero => omega
    | succ g1 =>
      cases f2 with
      | zero => omega
      | succ g2 =>
        rw [reSplitTagF, reSplitTagF, findTM_append_nl w6 hpt hlen x]
        rcases hf : findTM w6 x with _ | ⟨s, ln⟩
        · rfl
        · have hpos := findTM_pos w6 x s ln hf
          have hbnd := findTM_bound w6 hlen x s ln hf
          dsimp only
          rw [List.take_append_of_le_length (by omega)]
          rw [List.drop_append_of_le_length (by omega)]
          rcases hbs : reSplitTagF w6 g2 (x.drop (s + ln)) with _ | ⟨b2, bs2⟩
          · exact absurd hbs (reSplitTagF_ne_nil w6 g2 _)
          · rw [show padLast (x.take s :: b2 :: bs2) = x.take s :: padLast (b2 :: bs2)
              from rfl]
            rw [← hbs]
            rw [ih (x.drop (s + ln)) g1 g2 ?_ ?_ ?_] <;>
              (rw [List.length_drop]; omega)

theorem reSplitTagF_cons_nl (w6 : Cs → Nat → Bool) (y : Cs) (f1 f2 : Nat)
    (h1 : y.length + 1 < f1) (h2 : y.length < f2) :
    reSplitTagF w6 f1 ('\n' :: y) = consHd (reSplitTagF w6 f2 y) := by
  cases f1 with
  | zero => omega
  | succ g1 =>
    cases f2 with
    | zero => omega
    | succ g2 =>
      rw [reSplitTagF, reSplitTagF, findTM_cons_nl w6 y]
      rcases hf : findTM w6 y with _ | ⟨s, ln⟩
      · rfl
      · have hpos := findTM_pos w6 y s ln hf
        dsimp only [Option.map_some']
        rw [List.take_succ_cons]
        rw [show s + 1 + ln = s + ln + 1 from by omega, List.drop_succ_cons]
        rw [show consHd (y.take s :: reSplitTagF w6 g2 (y.drop (s + ln))) =
          ('\n' :: y.take s) :: reSplitTagF w6 g2 (y.drop (s + ln)) from rfl]
        rw [reSplitTagF_stable w6 ((y.drop (s + ln)).length) (y.drop (s + ln)) g1 g2
          le_rfl ?_ ?_] <;> (rw [List.length_drop]; omega)

theorem reSplitTag_pad (w6 : Cs → Nat → Bool)
    (hpt : ∀ t k, w6 (t ++ ['\n']) k = w6 t k)
    (hlen : ∀ t k, w6 t k = true → k + 6 ≤ t.length) (x : Cs) :
    reSplitTag w6 ('\n' :: (x ++ ['\n'])) = consHd (padLast (reSplitTag w6 x)) := by
  rw [reSplitTag, reSplitTag]
  have hL : ('\n' :: (x ++ ['\n'])).length = x.length + 2 := by
    rw [List.length_cons, List.length_append, List.length_singleton]
  rw [hL]
  rw [reSplitTagF_cons_nl w6 (x ++ ['\n']) (x.length + 2 + 1) (x.length + 2)
    (by rw [List.length_append, List.length_singleton]; omega)
    (by rw [List.length_append, List.length_singleton]; omega)]
  rw [reSplitTagF_append_nl w6 hpt hlen x.length x (x.length + 2) (x.length + 1)
    le_rfl (by omega) (by omega)]

end EmailSender

namespace EmailSender

theorem grabEsc_append_nl (l : Cs) :
    grabEsc (l ++ ['\n']) = (grabEsc l).map fun p => (p.1, p.2 ++ ['\n']) := by
  rcases l with _ | ⟨b, _ | ⟨q, rest⟩⟩
  · rfl
  · show grabEsc [b, '\n'] = (grabEsc [b]).map _
    rw [show grabEsc [b] = none from rfl, grabEsc]
    rw [if_neg fun h => absurd h.2 (by decide)]
    rfl
  · rw [List.cons_append, List.cons_append, grabEsc, grabEsc]
    by_cases hbq : b = bsl ∧ q = dqu
    · rw [if_pos hbq, if_pos hbq]
      dsimp only
      rw [List.takeWhile_append, List.dropWhile_append]
      by_cases hne : (rest.dropWhile fun c => c ≠ dqu).isEmpty
      · rw [if_pos hne]
        rw [show (['\n'].dropWhile fun c => (c ≠ dqu : Bool)) = [] from by decide]
        rw [List.isEmpty_iff] at hne
        rw [hne]
        rfl
      · rw [if_neg hne]
        rcases hd : rest.dropWhile (fun c => c ≠ dqu) with _ | ⟨q2, r3⟩
        · rw [hd] at hne
          exact absurd rfl hne
        · rw [List.cons_append]
          have hsum : (rest.takeWhile fun c => c ≠ dqu).length +
              (rest.dropWhile fun c => c ≠ dqu).length = rest.length := by
            rw [← List.length_append, List.takeWhile_append_dropWhile]
          rw [hd] at hsum
          simp only [List.length_cons] at hsum
          have hq : ¬((rest.takeWhile fun c => c ≠ dqu).length = rest.length) := by
            intro hEq
            omega
          rw [if_neg hq]
          dsimp only
          by_cases hc : 2 ≤ (rest.takeWhile fun c => c ≠ dqu).length ∧
              (rest.takeWhile fun c => c ≠ dqu).getLast? = some bsl
          · rw [if_pos hc, if_pos hc]
            rfl
          · rw [if_neg hc, if_neg hc]
            rfl
    · rw [if_neg hbq, if_neg hbq]
      rfl

theorem grabFst_ws_append_nl (d : Cs) :
    (grabEsc ((d ++ ['\n']).dropWhile isReWs)).map (fun p => p.1) =
    (grabEsc (d.dropWhile isReWs)).map (fun p => p.1) := by
  rw [List.dropWhile_append]
  by_cases he : (d.dropWhile isReWs).isEmpty
  · rw [if_pos he]
    rw [show (['\n'].dropWhile isReWs) = [] from by decide]
    rw [List.isEmpty_iff] at he
    rw [he]
  · rw [if_neg he]
    rw [grabEsc_append_nl]
    cases grabEsc (d.dropWhile isReWs) with
    | none => rfl
    | some p => rfl

theorem tryNameAt_append_nl (l : Cs) : tryNameAt (l ++ ['\n']) = tryNameAt l := by
  rcases l with _ | ⟨q, _ | ⟨col, rest⟩⟩
  · rfl
  · show tryNameAt [q, '\n'] = tryNameAt [q]
    rw [show tryNameAt [q] = none from rfl, tryNameAt]
    rw [if_neg fun h => absurd h.2 (by decide)]
  · rw [List.cons_append, List.cons_append, tryNameAt, tryNameAt]
    by_cases hqc : q = dqu ∧ col = ':'
    · rw [if_pos hqc, if_pos hqc]
      exact grabFst_ws_append_nl rest
    · rw [if_neg hqc, if_neg hqc]

theorem searchNameA_append_nl (l : Cs) : searchNameA (l ++ ['\n']) = searchNameA l := by
  induction l with
  | nil => rfl
  | cons c rest ih =>
    rw [List.cons_append, searchNameA, searchNameA]
    rw [show tryNameAt (c :: (rest ++ ['\n'])) = tryNameAt (c :: rest) from by
      rw [← List.cons_append]
      exact tryNameAt_append_nl (c :: rest)]
    cases tryNameAt (c :: rest) with
    | some cap => rfl
    | none =>
      dsimp only
      exact ih

theorem isStartOf_length (p : Cs) : ∀ l, isStartOf p l = true → p.length ≤ l.length := by
  induction p with
  | nil =>
    intro l _
    simp
  | cons a ps ih =>
    intro l h
    cases l with
    | nil => exact Bool.noConfusion h
    | cons c cs =>
      rw [isStartOf, Bool.and_eq_true] at h
      have := ih cs h.2
      simp only [List.length_cons]
      omega

theorem isStartOf_append_nl :
    ∀ p : Cs, ('\n' : Char) ∉ p → ∀ l, isStartOf p (l ++ ['\n']) = isStartOf p l := by
  intro p
  induction p with
  | nil =>
    intro _ l
    rfl
  | cons a ps ih =>
    intro hnl l
    cases l with
    | nil =>
      show isStartOf (a :: ps) ['\n'] = false
      rw [isStartOf]
      have ha : ¬(a = '\n') := fun h => hnl (h ▸ List.mem_cons_self a ps)
      rw [decide_eq_false ha]
      rfl
    | cons c cs =>
      rw [List.cons_append, isStartOf, isStartOf,
        ih (fun hm => hnl (List.mem_cons_of_mem a hm)) cs]

theorem tryFieldAt_append_nl (fname : Cs) (hnl : ('\n' : Char) ∉ fname) (l : Cs) :
    tryFieldAt fname (l ++ ['\n']) = tryFieldAt fname l := by
  have hpat : ('\n' : Char) ∉ ([bsl, dqu] ++ fname ++ [bsl, dqu, ':']) := by
    intro hm
    rcases List.mem_append.mp hm with h1 | h2
    · rcases List.mem_append.mp h1 with ha | hb
      · exact absurd ha (by decide)
      · exact hnl hb
    · exact absurd h2 (by decide)
  rw [tryFieldAt, tryFieldAt, isStartOf_append_nl _ hpat l]
  by_cases hs : isStartOf ([bsl, dqu] ++ fname ++ [bsl, dqu, ':']) l = true
  · rw [if_pos hs, if_pos hs]
    have hlen := isStartOf_length _ l hs
    have hlen5 : fname.length + 5 ≤ l.length := by
      simp only [List.length_append, List.length_cons, List.length_nil] at hlen
      omega
    rw [List.drop_append_of_le_length hlen5]
    exact grabFst_ws_append_nl (l.drop (fname.length + 5))
  · rw [if_neg hs, if_neg hs]

theorem searchField_append_nl (fname : Cs) (hnl : ('\n' : Char) ∉ fname) :
    ∀ l, searchField fname (l ++ ['\n']) = searchField fname l := by
  intro l
  induction l with
  | nil =>
    show searchField fname ['\n'] = searchField fname []
    rw [searchField, searchField]
    rw [show tryFieldAt fname ['\n'] = tryFieldAt fname ([] ++ ['\n']) from rfl,
      tryFieldAt_append_nl fname hnl []]
    rw [show tryFieldAt fname [] = none from rfl]
    rfl
  | cons c rest ih =>
    rw [List.cons_append, searchField, searchField]
    rw [show tryFieldAt fname (c :: (rest ++ ['\n'])) = tryFieldAt fname (c :: rest) from by
      rw [← List.cons_append]
      exact tryFieldAt_append_nl fname hnl (c :: rest)]
    cases tryFieldAt fname (c :: rest) with
    | some cap => rfl
    | none =>
      dsimp only
      exact ih

theorem findallEscF_stable :
    ∀ n l f1 f2, l.length ≤ n → l.length < f1 → l.length < f2 →
      findallEscF f1 l = findallEscF f2 l := by
  intro n
  induction n with
  | zero =>
    intro l f1 f2 hn h1 h2
    have hl : l = [] := List.length_eq_zero.mp (Nat.le_zero.mp hn)
    subst hl
    cases f1 with
    | zero => omega
    | succ g1 =>
      cases f2 with
      | zero => omega
      | succ g2 => rfl
  | succ n ih =>
    intro l f1 f2 hn h1 h2
    cases f1 with
    | zero => omega
    | succ g1 =>
      cases f2 with
      | zero => omega
      | succ g2 =>
        cases l with
        | nil => rfl
        | cons c rest =>
          simp only [List.length_cons] at hn h1 h2
          have e1 : findallEscF (g1 + 1) (c :: rest) =
              match grabEsc (c :: rest) with
              | some capr => capr.1 :: findallEscF g1 capr.2
              | none => findallEscF g1 rest := rfl
          have e2 : findallEscF (g2 + 1) (c :: rest) =
              match grabEsc (c :: rest) with
              | some capr => capr.1 :: findallEscF g2 capr.2
              | none => findallEscF g2 rest := rfl
          rw [e1, e2]
          rcases hg : grabEsc (c :: rest) with _ | ⟨cap, r2⟩
          · exact ih rest g1 g2 (by omega) (by omega) (by omega)
          · have hr2 := grabEsc_length (c :: rest) cap r2 hg
            simp only [List.length_cons] at hr2
            show cap :: findallEscF g1 r2 = cap :: findallEscF g2 r2
            rw [ih r2 g1 g2 (by omega) (by omega) (by omega)]

theorem findallEscF_append_nl :
    ∀ n l f1 f2, l.length ≤ n → l.length + 1 < f1 → l.length < f2 →
      findallEscF f1 (l ++ ['\n']) = findallEscF f2 l := by
  have h0 : ∀ g, findallEscF g ([] : Cs) = [] := by
    intro g
    cases g <;> rfl
  intro n
  induction n with
  | zero =>
    intro l f1 f2 hn h1 h2
    have hl : l = [] := List.length_eq_zero.mp (Nat.le_zero.mp hn)
    subst hl
    cases f1 with
    | zero => omega
    | succ g1 =>
      show findallEscF g1 [] = findallEscF f2 []
      rw [h0, h0]
  | succ n ih =>
    intro l f1 f2 hn h1 h2
    cases f1 with
    | zero => omega
    | succ g1 =>
      cases f2 with
      | zero => omega
      | succ g2 =>
        cases l with
        | nil =>
          show findallEscF g1 [] = findallEscF (g2 + 1) []
          rw [h0, h0]
        | cons c rest =>
          simp only [List.length_cons] at hn h1 h2
          have e1 : findallEscF (g1 + 1) ((c :: rest) ++ ['\n']) =
              match grabEsc (c :: (rest ++ ['\n'])) with
              | some capr => capr.1 :: findallEscF g1 capr.2
              | none => findallEscF g1 (rest ++ ['\n']) := rfl
          have e2 : findallEscF (g2 + 1) (c :: rest) =
              match grabEsc (c :: rest) with
              | some capr => capr.1 :: findallEscF g2 capr.2
              | none => findallEscF g2 rest := rfl
          rw [e1, e2]
          rw [show grabEsc (c :: (rest ++ ['\n'])) = grabEsc ((c :: rest) ++ ['\n']) from by
            rw [List.cons_append]]
          rw [grabEsc_append_nl (c :: rest)]
          rcases hg : grabEsc (c :: rest) with _ | ⟨cap, r2⟩
          · exact ih rest g1 g2 (by omega) (by omega) (by omega)
          · have hr2 := grabEsc_length (c :: rest) cap r2 hg
            simp only [List.length_cons] at hr2
            show cap :: findallEscF g1 (r2 ++ ['\n']) = cap :: findallEscF g2 r2
            rw [ih r2 g1 g2 (by omega) (by omega) (by omega)]

theorem findallEsc_append_nl (l : Cs) : findallEsc (l ++ ['\n']) = findallEsc l := by
  rw [findallEsc, findallEsc, List.length_append, List.length_singleton]
  exact findallEscF_append_nl l.length l (l.length + 1 + 1) (l.length + 1)
    le_rfl (by omega) (by omega)

theorem firstGoodQuoted_append_nl (l : Cs) :
    firstGoodQuoted (l ++ ['\n']) = firstGoodQuoted l := by
  rw [firstGoodQuoted, firstGoodQuoted, findallEsc_append_nl]

theorem fieldOrEmpty_append_nl (fname : String) (hnl : ('\n' : Char) ∉ fname.data)
    (b : Cs) : fieldOrEmpty fname (b ++ ['\n']) = fieldOrEmpty fname b := by
  rw [fieldOrEmpty, fieldOrEmpty, searchField_append_nl fname.data hnl b]

theorem blockRecord_append_nl (b : Cs) : blockRecord (b ++ ['\n']) = blockRecord b := by
  rw [blockRecord, blockRecord, searchNameA_append_nl, firstGoodQuoted_append_nl,
    fieldOrEmpty_append_nl "website" (by decide) b,
    fieldOrEmpty_append_nl "country" (by decide) b,
    fieldOrEmpty_append_nl "industry" (by decide) b,
    fieldOrEmpty_append_nl "contact_name" (by decide) b,
    fieldOrEmpty_append_nl "contact_title" (by decide) b,
    fieldOrEmpty_append_nl "contact_email" (by decide) b,
    fieldOrEmpty_append_nl "description" (by decide) b]

end EmailSender

namespace EmailSender

/-- The concatenation of the per-block records, the foldl of
blocksRecords in right-to-left form. -/
def catRecords : List Cs → List RealCompany
  | [] => []
  | b :: bs => blockRecord b ++ catRecords bs

theorem foldl_blockRecord_eq :
    ∀ (l : List Cs) (acc : List RealCompany),
      l.foldl (fun a b => a ++ blockRecord b) acc = acc ++ catRecords l := by
  intro l
  induction l with
  | nil =>
    intro acc
    rw [List.foldl_nil, catRecords, List.append_nil]
  | cons b bs ih =>
    intro acc
    rw [List.foldl_cons, ih, catRecords, List.append_assoc]

theorem blocksRecords_eq (blocks : List Cs) :
    blocksRecords blocks = catRecords (blocks.drop 1) := by
  rw [blocksRecords, foldl_blockRecord_eq, List.nil_append]

theorem catRecords_padLast : ∀ bs, catRecords (padLast bs) = catRecords bs := by
  intro bs
  induction bs using padLast.induct with
  | case1 => rfl
  | case2 b =>
    show blockRecord (b ++ ['\n']) ++ catRecords [] = blockRecord b ++ catRecords []
    rw [blockRecord_append_nl]
  | case3 b b2 bs ih =>
    show blockRecord b ++ catRecords (padLast (b2 :: bs)) =
      blockRecord b ++ catRecords (b2 :: bs)
    rw [ih]

theorem manualBlocks_pad (x : Cs) :
    manualBlocks ('\n' :: (x ++ ['\n'])) = consHd (padLast (manualBlocks x)) := by
  rw [manualBlocks, manualBlocks]
  rw [reSplitTag_pad w6pat1 w6pat1_append_nl w6pat1_len x]
  rw [consHd_length, padLast_length]
  by_cases hb : (reSplitTag w6pat1 x).length ≤ 1
  · rw [if_pos hb, if_pos hb, reSplitTag_pad w6pat2 w6pat2_append_nl w6pat2_len x]
  · rw [if_neg hb, if_neg hb]

theorem extract_companies_manually_pad (x : Cs) :
    extract_companies_manually ('\n' :: (x ++ ['\n'])) = extract_companies_manually x := by
  rw [extract_companies_manually, extract_companies_manually]
  have hrec : blocksRecords (manualBlocks ('\n' :: (x ++ ['\n']))) =
      blocksRecords (manualBlocks x) := by
    rw [manualBlocks_pad, blocksRecords_eq, blocksRecords_eq]
    rw [consHd_drop_one, padLast_drop_one, catRecords_padLast]
  rw [hrec]

theorem try_alternative_parsing_pad (cl : Cs) :
    try_alternative_parsing ('\n' :: (cl ++ ['\n'])) = try_alternative_parsing cl := by
  rw [try_alternative_parsing, try_alternative_parsing, json_loads_pad]

theorem recoverAfterParseFail_pad (icp : String) (num : Nat) (cl : Cs) :
    recoverAfterParseFail icp num ('\n' :: (cl ++ ['\n'])) =
      recoverAfterParseFail icp num cl := by
  rw [recoverAfterParseFail, recoverAfterParseFail, try_alternative_parsing_pad,
    extract_companies_manually_pad]

end EmailSender

namespace EmailSender

theorem stripChars_length_le (x : Cs) : (stripChars x).length ≤ x.length := by
  rw [stripChars, List.length_reverse]
  have h1 := length_dropWhile_le isPyWs ((x.dropWhile isPyWs).reverse)
  rw [List.length_reverse] at h1
  have h2 := length_dropWhile_le isPyWs x
  omega

theorem stripChars_btick_sandwich (Z : Cs) :
    stripChars (btick :: (Z ++ [btick])) = btick :: (Z ++ [btick]) := by
  have hb : ¬(isPyWs btick = true) := by decide
  rw [stripChars]
  rw [List.dropWhile_cons, if_neg hb]
  have hrev : (btick :: (Z ++ [btick])).reverse = btick :: (Z.reverse ++ [btick]) := by
    rw [List.reverse_cons, List.reverse_append]
    rfl
  rw [hrev]
  rw [List.dropWhile_cons, if_neg hb]
  rw [List.reverse_cons, List.reverse_append, List.reverse_reverse]
  rfl

theorem stripChars_wrap (y : Cs) :
    stripChars (tbJson ++ ('\n' :: (y ++ '\n' :: tb3))) =
      tbJson ++ ('\n' :: (y ++ '\n' :: tb3)) := by
  have e1 : tbJson = btick :: "``json".data := by decide
  have e2 : ('\n' :: tb3 : Cs) = "\n``".data ++ [btick] := by decide
  have hform : tbJson ++ ('\n' :: (y ++ '\n' :: tb3)) =
      btick :: (("``json".data ++ ('\n' :: (y ++ "\n``".data))) ++ [btick]) := by
    rw [e1]
    rw [show (y ++ '\n' :: tb3 : Cs) = y ++ ("\n``".data ++ [btick]) from by rw [← e2]]
    simp [List.append_assoc]
  rw [hform, stripChars_btick_sandwich]

theorem stripChars_wrap_length (y : Cs) :
    (stripChars (tbJson ++ ('\n' :: (y ++ '\n' :: tb3)))).length = y.length + 12 := by
  rw [stripChars_wrap]
  rw [List.length_append, List.length_cons, List.length_append, List.length_cons]
  rw [show tbJson.length = 7 from by decide, show tb3.length = 3 from by decide]
  omega

theorem escQA_cons_nl (p : Option Char) (w : Cs) :
    escQA p ('\n' :: w) = '\n' :: escQA none w := by
  rw [escQA, if_neg fun h => absurd h.1 (by decide)]
  have hcong := escQA_prev_congr (some '\n') none w
    ⟨fun h => absurd h (by decide), fun h => Option.noConfusion h⟩
  rw [hcong]

theorem fix_chain_pad (y : Cs) :
    replBQ (fix_json_issues ('\n' :: (y ++ ['\n']))) =
      '\n' :: (replBQ (fix_json_issues y) ++ ['\n']) := by
  rw [fix_json_issues, fix_json_issues]
  rw [rtc_cons_nl, rtc_append_nl]
  rw [replBQ_cons_ne '\n' _ (by decide), replBQ_append_nl]
  rw [escQA_cons_nl, escQA_append_nl]
  rw [replBQ_cons_ne '\n' _ (by decide), replBQ_append_nl]

theorem cleanContent_wrap (j : String) (hsub : hasSub tb3 j.data = false) :
    cleanContent (wrapJson j).data = cleanContent j.data ∨
    cleanContent (wrapJson j).data = '\n' :: (cleanContent j.data ++ ['\n']) := by
  rw [cleanContent, cleanContent, wrapJson_data, unwrap_wrapped j.data hsub,
    unwrap_direct j.data hsub]
  rcases boundaryTrim_pad j.data with h | ⟨h1, h2⟩
  · left
    rw [h]
  · right
    rw [h1, h2]
    exact fix_chain_pad j.data

theorem tryBody_wrap (icp : String) (num : Nat) (j : String)
    (hsub : hasSub tb3 j.data = false)
    (hlen : 50 ≤ (stripChars j.data).length) :
    tryBody icp num (wrapJson j) = tryBody icp num j := by
  have hjlen := stripChars_length_le j.data
  have hwlen : (stripChars (wrapJson j).data).length = j.data.length + 12 := by
    rw [wrapJson_data]
    exact stripChars_wrap_length j.data
  have hjne : ¬(j = "" ∨ (stripChars j.data).length < 50) := by
    rintro (h | h)
    · subst h
      exact absurd hlen (by decide)
    · omega
  have hwne : ¬(wrapJson j = "" ∨ (stripChars (wrapJson j).data).length < 50) := by
    rintro (h | h)
    · have hd := congrArg String.data h
      rw [wrapJson_data] at hd
      have hlen0 : (tbJson ++ ('\n' :: (j.data ++ '\n' :: tb3))).length =
          ("".data : Cs).length := congrArg List.length hd
      rw [List.length_append, List.length_cons] at hlen0
      rw [show (("".data : Cs)).length = 0 from rfl] at hlen0
      rw [show tbJson.length = 7 from by decide] at hlen0
      omega
    · rw [hwlen] at h
      omega
  rw [tryBody, tryBody, if_neg hwne, if_neg hjne]
  dsimp only
  rcases cleanContent_wrap j hsub with hc | hc
  · rw [hc]
  · rw [hc, json_loads_pad]
    rcases hv : json_loads (cleanContent j.data) with _ | v
    · dsimp only
      exact recoverAfterParseFail_pad icp num (cleanContent j.data)
    · rfl

end EmailSender

namespace EmailSender

/-- A valid JSON answer shorter than the 50-character preflight threshold. -/
def jshortC8 : String := "\x7b\"companies\":[\x7b\"name\":\"Acme Incorporated\"\x7d]\x7d"

/-- A valid JSON answer longer than the 50-character preflight threshold. -/
def jC8w : String := "\x7b\"companies\": [\x7b\"name\": \"Amalgamated Widget Company Limited\"\x7d]\x7d"

/-- C8 counterexample: a valid 44-character JSON answer. Run directly it
fails the 50-character preflight and the handler substitutes the fallback
catalog; wrapped in a ```json fence it is 12 characters longer, clears the
preflight, parses strictly, and the validity filter discards its only
record, returning the empty list. The wrapped and direct runs disagree,
so unwrap-then-parse is not unconditionally equivalent to direct parse. -/
theorem wrap_breaks_short_valid_json :
    json_loads jshortC8.data =
      some (JValue.jobj [("companies", JValue.jarr [JValue.jobj
        [("name", JValue.jstr "Acme Incorporated")]])]) ∧
    generateViaContent "technology companies" 1 (wrapJson jshortC8) ≠
      generateViaContent "technology companies" 1 jshortC8 := by
  constructor
  · rfl
  · intro h
    rw [show generateViaContent "technology companies" 1 (wrapJson jshortC8) =
        Except.ok [] from rfl] at h
    rw [show generateViaContent "technology companies" 1 jshortC8 =
        Except.ok (get_fallback_companies "technology companies" 1) from rfl] at h
    injection h with h2
    have h3 := congrArg List.length h2
    rw [show (get_fallback_companies "technology companies" 1).length = 1
      from by decide] at h3
    exact absurd h3 (by decide)

/-- C8 amended: wrapping a JSON answer in ```json fences is neutral for the
pipeline under two side conditions absent from the original claim: the bare
text must itself clear the 50-character preflight (wrapping adds twelve
characters, so a short valid answer changes outcome, as the counterexample
shows) and must not itself contain a triple-backtick fence. Under these
conditions the run on the wrapped text returns exactly the outcome of the
run on the bare text: the unwrap isolates the fenced body up to a leading
and a trailing newline, and every later stage, through strict parse and,
on parse failure, alternative parsing and manual extraction, is invariant
under that newline padding. -/
theorem wrapped_pipeline_agrees (icp : String) (num : Nat) (j : String) (v : JValue)
    (hv : json_loads j.data = some v) (hsub : hasSub tb3 j.data = false)
    (hlen : 50 ≤ (stripChars j.data).length) :
    generateViaContent icp num (wrapJson j) = generateViaContent icp num j := by
  rw [generateViaContent, generateViaContent, tryBody_wrap icp num j hsub hlen]

/-- Witness for the C8 theorem at a concrete 63-character valid JSON text. -/
theorem wrapped_pipeline_agrees_witness :
    json_loads jC8w.data =
      some (JValue.jobj [("companies", JValue.jarr [JValue.jobj
        [("name", JValue.jstr "Amalgamated Widget Company Limited")]])]) ∧
    hasSub tb3 jC8w.data = false ∧
    50 ≤ (stripChars jC8w.data).length ∧
    generateViaContent "technology companies" 3 (wrapJson jC8w) =
      generateViaContent "technology companies" 3 jC8w :=
  ⟨rfl, by decide, by decide,
    wrapped_pipeline_agrees "technology companies" 3 jC8w
      (JValue.jobj [("companies", JValue.jarr [JValue.jobj
        [("name", JValue.jstr "Amalgamated Widget Company Limited")]])])
      rfl (by decide) (by decide)⟩

end EmailSender
